import Mathlib

/-!
# A shallow embedding of `shell.c`

The shell reads a line, looks its first word up in a table of built-in
commands and either runs the built-in in-process or resolves the word against
`PATH` and launches it in a child process.

Conventions of the embedding:

* a C string is the list of its characters before the terminating NUL;
  a `char *` that may be `NULL` is an `Option CStr`;
* the operating system is a record of oracles (`OS`): the environment
  variables, the answer of `access(p, X_OK)`, the result of `chdir`, the value
  `fork` returns in the executing process, the result of `execv`, the status
  `wait` delivers;
* the process state is the working directory, the text written to standard
  output and the list of system calls issued so far;
* a token sequence is the list of its tokens; the tokenizer itself is outside
  the sources, and a line enters the embedding as its token sequence;
* a run ends by returning, by `exit`, by a successful `execv`, or in undefined
  behaviour (a read of the buffer `getcwd` left unwritten, a store outside
  the 256 bytes of `buf`, a `NULL` passed to `strlen`, an overflow of the
  counter `line_num`), which the embedding reports as `undefined`.
-/

namespace Shell

/-- The characters of a C string, without its terminating NUL. -/
abbrev CStr := List Char

/-- The macro `BUFSIZE` of the source. -/
def BUFSIZE : Nat := 256

/-! ## Library functions -/

/-- The library `strcmp`: zero when the strings are equal, otherwise the sign
of the first difference (the C standard fixes only the sign). -/
def strcmp : CStr → CStr → Int
  | [], [] => 0
  | [], _ :: _ => -1
  | _ :: _, [] => 1
  | a :: as, b :: bs =>
    if a = b then strcmp as bs else if a.toNat < b.toNat then -1 else 1

/-- The library `getcwd(buf, size)`: the working directory is copied into the
buffer when it fits together with its NUL; otherwise the call fails and the
buffer is left unwritten (`none`). -/
def getcwd (cwd : CStr) (size : Nat) : Option CStr :=
  if cwd.length + 1 ≤ size then some cwd else none

/-- The library `strtok` with a one-character delimiter set, on the rest of the
string still to be scanned: leading delimiters are skipped; `none` when nothing
is left; otherwise the token up to the next delimiter and the rest after that
delimiter. -/
def strtok (delim : Char) (s : CStr) : Option (CStr × CStr) :=
  match s.dropWhile (fun c => c == delim) with
  | [] => none
  | c :: cs =>
    some ((c :: cs).takeWhile (fun x => x != delim),
          ((c :: cs).dropWhile (fun x => x != delim)).drop 1)

/-! ## The token sequence -/

/-- Modelled from the spec: the length accessor of the token sequence
(`tokenizer.h` and its implementation are outside the sources; the spec gives
the sequence "a length accessor and an index accessor"). -/
def tokens_get_length (tokens : List CStr) : Nat :=
  tokens.length

/-- Modelled from the spec: the index accessor of the token sequence. Past the
end of the sequence it is taken to return `NULL`. -/
def tokens_get_token (tokens : List CStr) (n : Nat) : Option CStr :=
  tokens[n]?

/-! ## The table of built-in commands -/

/-- The four handlers a table entry can point to (`cmd_fun_t *`). -/
inductive cmd_fun_t where
  | cmd_help
  | cmd_exit
  | cmd_pwd
  | cmd_cd
  deriving DecidableEq, Repr

/-- The struct `fun_desc_t`: handler, command name, help text. -/
structure fun_desc_t where
  func : cmd_fun_t
  cmd : CStr
  doc : CStr
  deriving DecidableEq, Repr

/-- The array `cmd_table`. -/
def cmd_table : List fun_desc_t :=
  [ ⟨cmd_fun_t.cmd_help, "?".toList, "show this help menu".toList⟩,
    ⟨cmd_fun_t.cmd_exit, "exit".toList, "exit the command shell".toList⟩,
    ⟨cmd_fun_t.cmd_pwd, "pwd".toList, "display present working directory".toList⟩,
    ⟨cmd_fun_t.cmd_cd, "cd".toList, "change present working directory".toList⟩ ]

/-- The loop of `lookup` from index `i` over the remaining entries:
`if (cmd && strcmp(cmd_table[i].cmd, cmd) == 0) return i;`, and `-1` after the
last entry. -/
def lookupLoop (cmd : Option CStr) : List fun_desc_t → Nat → Int
  | [], _ => -1
  | e :: rest, i =>
    match cmd with
    | some c => if strcmp e.cmd c = 0 then (i : Int) else lookupLoop cmd rest (i + 1)
    | none => lookupLoop cmd rest (i + 1)

/-- The function `lookup`: the index of the built-in, or `-1`. -/
def lookup (cmd : Option CStr) : Int :=
  lookupLoop cmd cmd_table 0

/-- The reference table search the specification describes: the index of the
entry whose name equals the given string exactly, `-1` (NotFound) when there is
none or when no name was given. -/
def lookupRef (cmd : Option CStr) : Int :=
  match cmd with
  | none => -1
  | some s =>
    match (cmd_table.map fun_desc_t.cmd).indexOf s with
    | i => if i < cmd_table.length then (i : Int) else -1

/-! ## The operating system and the process state -/

/-- The part of the operating system the shell talks to, as oracles. -/
structure OS where
  /-- The value of `getenv("HOME")`, `none` for `NULL`. -/
  HOME : Option CStr
  /-- The value of `getenv("PATH")`, `none` for `NULL`. -/
  PATH : Option CStr
  /-- Whether `access(path, X_OK)` succeeds, seen from a working directory. -/
  access_X_OK : CStr → CStr → Bool
  /-- The directory `chdir(path)` leads to from a working directory, `none`
  when the call returns `-1`. -/
  chdir : CStr → CStr → Option CStr
  /-- The value `fork()` returns in the process that executes the code: `0` in
  the child, the child id in the parent, `-1` on failure. -/
  fork : Int
  /-- The result of `execv(path, argv)`: `none` when the image is replaced,
  `some e` when the call returns `-1` with `errno = e`. -/
  execv : CStr → Option Int
  /-- The exit status of the terminated child, which `wait` delivers in the
  status word it stores through its argument. -/
  wait_status : Int
  /-- The answer of `isatty(STDIN_FILENO)`. -/
  isatty : Bool

/-- The system calls the embedding records. -/
inductive Syscall where
  | chdir (path : Option CStr)
  | fork
  | execv (path : CStr) (argv : List CStr)
  | wait
  deriving DecidableEq, Repr

/-- The state of the shell process. -/
structure State where
  /-- The current working directory. -/
  cwd : CStr
  /-- Everything written to standard output so far. -/
  out : CStr
  /-- The system calls issued so far, oldest first. -/
  calls : List Syscall
  deriving DecidableEq, Repr

/-- How a piece of code ends. -/
inductive Outcome where
  /-- The function returned the value `v`. -/
  | ret (v : Int) (st : State)
  /-- The process terminated through `exit(code)`. -/
  | exit (code : Int) (st : State)
  /-- The call of `execv` succeeded: the process runs another program. -/
  | image (st : State)
  /-- The code has undefined behaviour. -/
  | undefined
  deriving DecidableEq, Repr

/-- The call `printf`/`fprintf(stdout, ...)` with the formatted text `s`. -/
def print (st : State) (s : CStr) : State :=
  { st with out := st.out ++ s }

/-- The system call `chdir(path)`: it is recorded; it fails on a `NULL`
pointer (EFAULT) and on the empty path (ENOENT), otherwise the oracle decides.
The result is the new state and whether the call succeeded (did not return
`-1`). -/
def sys_chdir (os : OS) (st : State) (path : Option CStr) : State × Bool :=
  let st1 : State := { st with calls := st.calls ++ [Syscall.chdir path] }
  match path with
  | none => (st1, false)
  | some [] => (st1, false)
  | some (c :: cs) =>
    match os.chdir st.cwd (c :: cs) with
    | some d => ({ st1 with cwd := d }, true)
    | none => (st1, false)

/-! ## The built-in commands -/

/-- The function `cmd_help`: one line `name - doc` per table entry. -/
def cmd_help (st : State) (_tokens : List CStr) : Outcome :=
  Outcome.ret 1
    (cmd_table.foldl (fun s e => print s (e.cmd ++ " - ".toList ++ e.doc ++ "\n".toList)) st)

/-- The function `cmd_exit`: `exit(0)`. -/
def cmd_exit (st : State) (_tokens : List CStr) : Outcome :=
  Outcome.exit 0 st

/-- The function `cmd_pwd`: `getcwd(buf, BUFSIZE); printf("%s\n", buf);` with
the result of `getcwd` unchecked: when the call fails, `printf` reads the
unwritten buffer. -/
def cmd_pwd (st : State) (_tokens : List CStr) : Outcome :=
  match getcwd st.cwd BUFSIZE with
  | some buf => Outcome.ret 1 (print st (buf ++ "\n".toList))
  | none => Outcome.undefined

/-- The backward scan `while(*cpt != '/') cpt--;` of `cmd_cd` from index `cpt`:
the index at which it stops, `none` when it runs below the start of the
buffer. -/
def scanBack (buf : CStr) : Nat → Option Nat
  | 0 => if buf[0]? = some '/' then some 0 else none
  | n + 1 => if buf[n + 1]? = some '/' then some (n + 1) else scanBack buf n

/-- The end of `cmd_cd`:
`if(chdir(buf) == -1) fprintf(stdout, "bash: cd: %s: No such file or directory\n", arg); return 1;` -/
def chdirReport (os : OS) (st : State) (arg buf : CStr) : Outcome :=
  match sys_chdir os st (some buf) with
  | (st1, true) => Outcome.ret 1 st1
  | (st1, false) =>
    Outcome.ret 1
      (print st1 ("bash: cd: ".toList ++ arg ++ ": No such file or directory\n".toList))

/-- The function `cmd_cd`. The buffer `buf` has `BUFSIZE` bytes; `cpt` is an
index into it. -/
def cmd_cd (os : OS) (st : State) (tokens : List CStr) : Outcome :=
  -- getcwd(buf, BUFSIZE);
  let buf := getcwd st.cwd BUFSIZE
  if tokens_get_length tokens < 2 then
    -- chdir(getenv("HOME")); return 0;
    Outcome.ret 0 (sys_chdir os st os.HOME).1
  else
    -- arg = tokens_get_token(tokens, 1);
    match tokens_get_token tokens 1 with
    | none => Outcome.undefined
    | some arg =>
      match buf with
      | none => Outcome.undefined -- `*cpt` reads the unwritten buffer
      | some b =>
        -- cpt = buf; while(*cpt != '\0') cpt++;
        let cpt := b.length
        -- *cpt = '/'; *(cpt+1) = '\0';
        if BUFSIZE ≤ cpt + 1 then Outcome.undefined
        else
          let b1 := b ++ ['/']
          if strcmp arg ".".toList = 0 then Outcome.ret 1 st
          else if strcmp arg "..".toList = 0 then
            -- cpt--; while(*cpt != '/') cpt--; *cpt = '\0';
            match cpt with
            | 0 => Outcome.undefined
            | c + 1 =>
              match scanBack b1 c with
              | none => Outcome.undefined
              | some k => chdirReport os st arg (b1.take k)
          else
            -- strcat(buf, arg);
            if BUFSIZE < b1.length + arg.length + 1 then Outcome.undefined
            else chdirReport os st arg (b1 ++ arg)

/-! ## Launching a program -/

/-- The `while(1)` loop of `shell_exec` that copies the segments of `PATH`
into `result`. `path` is the current token, `rest` the part of the copy
`strtok` has not scanned yet; the loop returns `result`, `i` and `maxPathLen`.
The first argument bounds the number of iterations. -/
def tokenizeLoop : Nat → CStr → CStr → List CStr → Nat → Nat → Option (List CStr × Nat × Nat)
  | 0, _, _, _, _, _ => none
  | fuel + 1, path, rest, result, i, maxPathLen =>
    let pathLen := path.length + 1
    let maxPathLen := if pathLen > maxPathLen then pathLen else maxPathLen
    -- result[i] = strcpy(malloc(pathLen), path);
    let result := result.take i ++ [path]
    match strtok ':' rest with
    | none => some (result, i, maxPathLen)
    | some (p, r) => tokenizeLoop fuel p r result (i + 1) maxPathLen

/-- The string `strcpy(absPath, dir); strcat(absPath, "/"); strcat(absPath, name);`
leaves in `absPath`: the candidate path `dir/name`. -/
def candidate (dir name : CStr) : CStr :=
  dir ++ "/".toList ++ name

/-- The `for` loop of `shell_exec` over the directories still to be probed:
the candidate `dir/name` is built in `absPath` (a buffer of `cap` bytes) and
probed; the loop ends at the first hit. The result is the content of `absPath`
after the loop (`some none` while it is unwritten), `none` when a candidate does
not fit the buffer. -/
def probeLoop (probe : CStr → Bool) (cap : Nat) (name : CStr) :
    List CStr → Option CStr → Option (Option CStr)
  | [], absPath => some absPath
  | d :: ds, _ =>
    let cand := candidate d name
    if cap < cand.length + 1 then none
    else if probe cand then some (some cand)
    else probeLoop probe cap name ds (some cand)

/-- The indices of `arg` that `shell_exec` stores to: `0 .. argLen - 1` in the
copy loop, then `argLen` for the terminating `NULL`. The array is declared
`char *arg[argLen]`. -/
def argStores (argLen : Nat) : List Nat :=
  List.range argLen ++ [argLen]

/-- The end of `shell_exec`, `//fork and execute`, with the argument vector
`a0 :: args`: `fork`; in the child `if(execv(*arg, arg) == -1) exit(errno);`;
in the parent `wait(&pid);`, which stores the status of the child into `pid`,
and `return 0`. -/
def forkExec (os : OS) (st : State) (a0 : CStr) (args : List CStr) : Outcome :=
  -- pid_t pid = fork();
  let st1 : State := { st with calls := st.calls ++ [Syscall.fork] }
  if os.fork = 0 then
    let st2 : State := { st1 with calls := st1.calls ++ [Syscall.execv a0 (a0 :: args)] }
    match os.execv a0 with
    | none => Outcome.image st2
    | some e => Outcome.exit e st2
  else
    -- wait(&pid); return 0;
    let _pid : Int := os.wait_status
    Outcome.ret 0 { st1 with calls := st1.calls ++ [Syscall.wait] }

/-- The beginning of `shell_exec`, `//Tokenize the paths`, on the value of
`PATH`: the first call of `strtok` and the `while(1)` loop, bounded by
`envLen` iterations. The result is `result`, `numPaths` and `maxPathLen`;
`none` when `strlen` is applied to the `NULL` that `strtok` returned. -/
def splitPath (shell_path : CStr) : Option (List CStr × Nat × Nat) :=
  let envLen := shell_path.length + 1
  -- path = strtok(copyenv, ":");
  match strtok ':' shell_path with
  | none => none -- strlen(path) with path == NULL
  | some (path, rest) =>
    match tokenizeLoop envLen path rest [] 0 0 with
    | none => none
    | some (result, i, maxPathLen) => some (result, i + 1, maxPathLen)

/-- The function `shell_exec`. The copy loop stores the tokens into `arg`, so
the argument vector is kept as the list of the tokens, that is, of its entries
before the terminating `NULL`. The store of that `NULL` goes to the index
`argLen` of an array declared with `argLen` elements; the embedding lists the
indices stored to in `argStores` and lets the vector be the one the code
means to build, so that the rest of the function can be described. -/
def shell_exec (os : OS) (st : State) (tokens : List CStr) : Outcome :=
  match os.PATH with
  | none => Outcome.undefined -- strlen(NULL)
  | some shell_path =>
    match splitPath shell_path with
    | none => Outcome.undefined
    | some (result, numPaths, maxPathLen) =>
      match tokens with
      | [] => Outcome.undefined -- access(NULL, X_OK) == -1, then strlen(NULL)
      | name :: args =>
        let arg0 : Option (Option CStr) :=
          if os.access_X_OK st.cwd name then some (some name)
          else
            -- absPath = malloc(sizeof(char)*(maxPathLen + 2 + strlen(arg[0])));
            probeLoop (os.access_X_OK st.cwd) (maxPathLen + 2 + name.length) name
              (result.take numPaths) none
        match arg0 with
        | none => Outcome.undefined
        | some none => Outcome.undefined
        | some (some a0) => forkExec os st a0 args

/-! ## The driver -/

/-- The largest value of an `int`. -/
def INT_MAX : Nat := 2147483647

/-- The call `cmd_table[fundex].fun(tokens)`. -/
def dispatch (os : OS) (st : State) (f : cmd_fun_t) (tokens : List CStr) : Outcome :=
  match f with
  | cmd_fun_t.cmd_help => cmd_help st tokens
  | cmd_fun_t.cmd_exit => cmd_exit st tokens
  | cmd_fun_t.cmd_pwd => cmd_pwd st tokens
  | cmd_fun_t.cmd_cd => cmd_cd os st tokens

/-- The body of the `while (fgets(...))` loop of `main` for one line, given
as the token sequence the tokenizer makes of it: lookup of the first token,
then the built-in or `shell_exec`. -/
def runLine (os : OS) (st : State) (tokens : List CStr) : Outcome :=
  let fundex := lookup (tokens_get_token tokens 0)
  if 0 ≤ fundex then
    match cmd_table[fundex.toNat]? with
    | some e => dispatch os st e.func tokens
    | none => Outcome.undefined
  else shell_exec os st tokens

/-- The `while (fgets(...))` loop of `main` over the remaining lines, with
the flag `shell_is_interactive` and the counter `line_num`. -/
def mainLoop (os : OS) (interactive : Bool) : List (List CStr) → Nat → State → Outcome
  | [], _, st => Outcome.ret 0 st
  | tokens :: rest, line_num, st =>
    match runLine os st tokens with
    | Outcome.ret _ st1 =>
      if interactive then
        -- fprintf(stdout, "%d: ", ++line_num);
        if INT_MAX ≤ line_num then Outcome.undefined
        else
          mainLoop os interactive rest (line_num + 1)
            (print st1 ((toString (line_num + 1)).toList ++ ": ".toList))
      else mainLoop os interactive rest line_num st1
    | r => r

/-- The function `main`, from the point where `init_shell` has set
`shell_is_interactive` (the wait of `init_shell` for the terminal foreground is
not part of the embedding). The input is the list of token sequences of the
lines `fgets` reads. -/
def main (os : OS) (st : State) (lines : List (List CStr)) : Outcome :=
  let interactive := os.isatty
  let st0 := if interactive then print st ((toString (0 : Nat)).toList ++ ": ".toList) else st
  mainLoop os interactive lines 0 st0

/-! ## Reference definitions used to state the properties -/

/-- The segments of a string between occurrences of the separator `sep` (a
reference definition, not code of the shell). -/
def segments (sep : Char) : CStr → List CStr
  | [] => [[]]
  | c :: cs =>
    if c = sep then [] :: segments sep cs
    else
      match segments sep cs with
      | [] => [[c]]
      | h :: t => (c :: h) :: t

/-- The directories of a `PATH` value in `PATH` order: its non-empty segments
between colons (a reference definition, not code of the shell). -/
def pathDirs (p : CStr) : List CStr :=
  (segments ':' p).filter (fun s => decide (s ≠ []))

/-- The components of a pathname: its non-empty segments between slashes (a
reference definition, not code of the shell). -/
def components (p : CStr) : List CStr :=
  (segments '/' p).filter (fun s => decide (s ≠ []))

/-- A directory name as `getcwd` reports it in a path: not empty, without a
slash, and neither `.` nor `..`. -/
def isName (s : CStr) : Prop :=
  s ≠ [] ∧ '/' ∉ s ∧ s ≠ ".".toList ∧ s ≠ "..".toList

instance : DecidablePred isName := fun s => by
  unfold isName
  infer_instance

/-- The pathname resolution of the operating system on the components of a
path, read lexically from the directory `dir` (the names on the way from the
root): `..` goes to the parent, and the parent of the root is the root; `.`
stays; a name goes down into that entry. This is the resolution POSIX
prescribes when every directory named exists and none is a symbolic link; it
is a model of the kernel, not code of the shell. -/
def walk : List CStr → List CStr → List CStr
  | dir, [] => dir
  | dir, c :: cs =>
    if c = "..".toList then walk dir.dropLast cs
    else if c = ".".toList then walk dir cs
    else walk (dir ++ [c]) cs

/-- The directory an absolute pathname leads to, as the names on the way from
the root (a model of the kernel, not code of the shell). -/
def resolveAbs (p : CStr) : List CStr :=
  walk [] (components p)

/-- The text `/s1/s2/.../sn` for the names `s1 .. sn`. -/
def slashed : List CStr → CStr
  | [] => []
  | s :: t => '/' :: (s ++ slashed t)

/-- The absolute pathname of the directory reached from the root through the
names `segs`, in the form `getcwd` reports: `/` for the root, `/s1/.../sn`
otherwise. -/
def absPath (segs : List CStr) : CStr :=
  match segs with
  | [] => ['/']
  | s :: t => slashed (s :: t)

/-- The text `s1/s2/.../sn`: the strings joined by one slash. -/
def joinSlash : List CStr → CStr
  | [] => []
  | [s] => s
  | s :: t :: r => s ++ '/' :: joinSlash (t :: r)

/-- The value of `maxPathLen` after the directories `ds` have gone through the
loop, from the value `m`: the largest `strlen + 1` seen, or `m` (a reference
definition, not code of the shell). -/
def maxLen (ds : List CStr) (m : Nat) : Nat :=
  ds.foldl (fun acc d => if d.length + 1 > acc then d.length + 1 else acc) m

/-- The length of the longest string of a list, `0` for the empty list (a
reference definition, not code of the shell). -/
def longest (ds : List CStr) : Nat :=
  ds.foldr (fun d m => max d.length m) 0

/-- The strings of a list one after the other. -/
def concatAll (xs : List CStr) : CStr :=
  xs.foldr (fun x acc => x ++ acc) []

/-- The line `cmd_help` prints for a table entry: `name - doc` and a newline,
the text `printf("%s - %s\n", cmd, doc)` writes. -/
def helpLine (e : fun_desc_t) : CStr :=
  e.cmd ++ " - ".toList ++ e.doc ++ "\n".toList

/-- The exit status a parent observes after the child has called
`exit(code)`: the low eight bits of the code. -/
def exitStatus (code : Int) : Int :=
  code % 256

/-- The prompt that carries the counter value `k`: the text
`fprintf(stdout, "%d: ", k)` writes. -/
def promptText (k : Nat) : CStr :=
  (toString k).toList ++ ": ".toList

/-- The state `s` with the text `pre` put before its output. -/
def addOut (pre : CStr) (s : State) : State :=
  { s with out := pre ++ s.out }

/-- An outcome with the text `pre` put before the output of its state. -/
def prefixOut (pre : CStr) : Outcome → Outcome
  | Outcome.ret v s => Outcome.ret v (addOut pre s)
  | Outcome.exit c s => Outcome.exit c (addOut pre s)
  | Outcome.image s => Outcome.image (addOut pre s)
  | Outcome.undefined => Outcome.undefined

/-- What the processing of one line prints and the state it leaves, when the
line is processed in the working directory and after the system calls of `s`,
from an empty output; `none` when the processing does not return to the loop
(a reference definition, not code of the shell). -/
def lineText (os : OS) (s : State) (l : List CStr) : Option (CStr × State) :=
  match runLine os { s with out := [] } l with
  | Outcome.ret _ s1 => some (s1.out, s1)
  | _ => none

/-- The texts the lines of a session print, one per line, each line processed
in the working directory the lines before it have left; `none` when the
processing of some line does not return to the loop (a reference definition,
not code of the shell). -/
def lineTexts (os : OS) : State → List (List CStr) → Option (List CStr)
  | _, [] => some []
  | s, l :: rest =>
    match lineText os s l with
    | none => none
    | some (t, s1) =>
      match lineTexts os s1 rest with
      | none => none
      | some ts => some (t :: ts)

/-- The texts `t1 .. tn` of the lines, each followed by a prompt, the prompts
carrying the counter values `k + 1 .. k + n` in that order (a reference
definition, not code of the shell). -/
def withPrompts : Nat → List CStr → CStr
  | _, [] => []
  | k, t :: ts => t ++ promptText (k + 1) ++ withPrompts (k + 1) ts

end Shell

namespace Shell

/-- A sample system: `/bin/ls` and `./prog` are executable, every directory
change to a path starting with `/` succeeds and leads to that path. -/
def os1 : OS :=
  { HOME := some "/home/u".toList
    PATH := some "/usr/bin:/bin".toList
    access_X_OK := fun _ p => p = "/bin/ls".toList || p = "./prog".toList
    chdir := fun _ p => if p.head? = some '/' then some p else none
    fork := 0
    execv := fun p => if p = "/bin/ls".toList then none else some 2
    wait_status := 0
    isatty := false }

/-- A sample state: the working directory is `/a/b/c`, nothing printed, no
system call issued. -/
def st1 : State := { cwd := "/a/b/c".toList, out := [], calls := [] }

/-- A sample system in which no directory change succeeds and `HOME` names a
directory that does not exist. -/
def os2 : OS :=
  { os1 with HOME := some "/nonexistent".toList, chdir := fun _ _ => none }

/-- The sample system seen from the parent: `fork` returns the child id `7`,
and the child terminates with exit status `1`. -/
def os3 : OS :=
  { os1 with fork := 7, wait_status := 1 }

/-- The sample system with standard input on a terminal. -/
def os4 : OS :=
  { os1 with isatty := true }

/-- A sample system whose `chdir` resolves the pathname it is given as POSIX
prescribes, every directory named being present: an absolute path from the
root, another path from the working directory. -/
def os5 : OS :=
  { os1 with
    chdir := fun cwd p =>
      if p.head? = some '/' then some (absPath (resolveAbs p))
      else some (absPath (resolveAbs (cwd ++ "/".toList ++ p))) }

/-! ## Lemmas on the library functions -/

theorem strcmp_eq_zero_iff (a b : CStr) : strcmp a b = 0 ↔ a = b := by
  induction a generalizing b with
  | nil => cases b <;> simp [strcmp]
  | cons x xs ih =>
    cases b with
    | nil => simp [strcmp]
    | cons y ys =>
      by_cases h : x = y
      · simp [strcmp, h, ih]
      · by_cases h2 : x.toNat < y.toNat <;> simp [strcmp, h, h2]

theorem strcmp_self (a : CStr) : strcmp a a = 0 :=
  (strcmp_eq_zero_iff a a).2 rfl

/-! ## C1: `lookup` -/

/-- C1. `lookup` equals the reference table search: it agrees with `lookupRef`
on every argument; for each table entry it returns the index of that entry when
given the entry's name; for a string equal to no registered name it returns
`-1`; and for a null name it returns `-1`. -/
theorem C1_lookup_eq_reference :
    (∀ cmd : Option CStr, lookup cmd = lookupRef cmd) ∧
    (∀ (i : Nat) (e : fun_desc_t), cmd_table[i]? = some e → lookup (some e.cmd) = (i : Int)) ∧
    (∀ s : CStr, (∀ e ∈ cmd_table, e.cmd ≠ s) → lookup (some s) = -1) ∧
    lookup none = -1 := by
  have key : ∀ s : CStr, lookup (some s) =
      if "?".toList = s then 0 else if "exit".toList = s then 1
      else if "pwd".toList = s then 2 else if "cd".toList = s then 3 else -1 := by
    intro s
    simp only [lookup, cmd_table, lookupLoop, strcmp_eq_zero_iff]
    rfl
  refine ⟨?_, ?_, ?_, by decide⟩
  · intro cmd
    cases cmd with
    | none => decide
    | some s =>
      rw [key]
      by_cases h0 : "?".toList = s
      · subst h0; decide
      by_cases h1 : "exit".toList = s
      · subst h1; decide
      by_cases h2 : "pwd".toList = s
      · subst h2; decide
      by_cases h3 : "cd".toList = s
      · subst h3; decide
      have hn : (cmd_table.map fun_desc_t.cmd).indexOf s = 4 := by
        have g0 : ("?".toList == s) = false := beq_eq_false_iff_ne.2 h0
        have g1 : ("exit".toList == s) = false := beq_eq_false_iff_ne.2 h1
        have g2 : ("pwd".toList == s) = false := beq_eq_false_iff_ne.2 h2
        have g3 : ("cd".toList == s) = false := beq_eq_false_iff_ne.2 h3
        simp only [cmd_table, List.map, List.indexOf_cons, List.indexOf_nil, g0, g1, g2, g3,
          cond_false]
      simp only [lookupRef, hn, h0, h1, h2, h3]
      decide
  · intro i e h
    match i, h with
    | 0, h => cases h; decide
    | 1, h => cases h; decide
    | 2, h => cases h; decide
    | 3, h => cases h; decide
    | (n + 4), h => simp [cmd_table] at h
  · intro s hs
    rw [key]
    have h0 : "?".toList ≠ s :=
      hs ⟨cmd_fun_t.cmd_help, "?".toList, "show this help menu".toList⟩ (by simp [cmd_table])
    have h1 : "exit".toList ≠ s :=
      hs ⟨cmd_fun_t.cmd_exit, "exit".toList, "exit the command shell".toList⟩ (by simp [cmd_table])
    have h2 : "pwd".toList ≠ s :=
      hs ⟨cmd_fun_t.cmd_pwd, "pwd".toList, "display present working directory".toList⟩
        (by simp [cmd_table])
    have h3 : "cd".toList ≠ s :=
      hs ⟨cmd_fun_t.cmd_cd, "cd".toList, "change present working directory".toList⟩
        (by simp [cmd_table])
    rw [if_neg h0, if_neg h1, if_neg h2, if_neg h3]

/-- C1, at concrete inputs: the name of the entry at index 2 is found at index
2, and `ls`, which no entry has as its name, is not found. -/
theorem C1_lookup_eq_reference_witness :
    lookup (some "pwd".toList) = 2 ∧ lookup (some "ls".toList) = -1 :=
  ⟨C1_lookup_eq_reference.2.1 2 ⟨cmd_fun_t.cmd_pwd, "pwd".toList,
      "display present working directory".toList⟩ rfl,
   C1_lookup_eq_reference.2.2.1 "ls".toList (by decide)⟩

/-! ## Lemmas on `shell_exec` -/

theorem segments_colon_eq (s : CStr) :
    segments ':' s = s.takeWhile (fun x => x != ':') ::
      (match s.dropWhile (fun x => x != ':') with
       | [] => []
       | _ :: r => segments ':' r) := by
  induction s with
  | nil => rfl
  | cons c cs ih =>
    by_cases h : c = ':'
    · subst h
      simp [segments]
    · have hb : (c != ':') = true := by simpa using h
      rw [segments, if_neg h, ih]
      simp [List.takeWhile_cons, List.dropWhile_cons, hb]

theorem pathDirs_colon (cs : CStr) : pathDirs (':' :: cs) = pathDirs cs := by
  simp [pathDirs, segments]

theorem pathDirs_of_ne (c : Char) (cs : CStr) (h : c ≠ ':') :
    pathDirs (c :: cs) = (c :: cs).takeWhile (fun x => x != ':') ::
      pathDirs (((c :: cs).dropWhile (fun x => x != ':')).drop 1) := by
  have hb : (c != ':') = true := by simpa using h
  unfold pathDirs
  rw [segments_colon_eq (c :: cs)]
  rw [List.filter_cons_of_pos (by simp [List.takeWhile_cons, hb])]
  congr 1
  cases hd : (c :: cs).dropWhile (fun x => x != ':') with
  | nil => rfl
  | cons y r => rfl

/-- What `strtok` returns, in terms of the directory list: nothing when there
is no directory, otherwise the first directory, and a strictly shorter rest
that holds the other directories. -/
theorem strtok_pathDirs (s : CStr) :
    match strtok ':' s with
    | none => pathDirs s = []
    | some (t, r) => pathDirs s = t :: pathDirs r ∧ r.length < s.length := by
  induction s with
  | nil => simp [strtok, pathDirs, segments]
  | cons c cs ih =>
    by_cases h : c = ':'
    · subst h
      have e : strtok ':' (':' :: cs) = strtok ':' cs := by
        simp [strtok, List.dropWhile_cons]
      rw [e, pathDirs_colon]
      cases hs : strtok ':' cs with
      | none => rw [hs] at ih; exact ih
      | some tr =>
        rw [hs] at ih
        obtain ⟨t, r⟩ := tr
        exact ⟨ih.1, Nat.lt_succ_of_lt ih.2⟩
    · have hb : (c == ':') = false := by simpa using h
      have e : strtok ':' (c :: cs) =
          some ((c :: cs).takeWhile (fun x => x != ':'),
                ((c :: cs).dropWhile (fun x => x != ':')).drop 1) := by
        simp [strtok, List.dropWhile_cons, hb]
      rw [e]
      refine ⟨pathDirs_of_ne c cs h, ?_⟩
      have h1 : (((c :: cs).dropWhile (fun x => x != ':')).drop 1).length
          ≤ ((c :: cs).dropWhile (fun x => x != ':')).length := by
        simp
      have h2 : ((c :: cs).dropWhile (fun x => x != ':')).length ≤ cs.length := by
        have hb2 : (c != ':') = true := by simpa using h
        rw [List.dropWhile_cons, if_pos hb2]
        exact (List.dropWhile_sublist _).length_le
      simp only [List.length_cons]
      omega

theorem strtok_none_dirs (s : CStr) (h : strtok ':' s = none) : pathDirs s = [] := by
  have := strtok_pathDirs s
  rw [h] at this
  exact this

theorem strtok_some_dirs (s t r : CStr) (h : strtok ':' s = some (t, r)) :
    pathDirs s = t :: pathDirs r ∧ r.length < s.length := by
  have := strtok_pathDirs s
  rw [h] at this
  exact this

theorem strtok_of_dirs (s d : CStr) (ds : List CStr) (h : pathDirs s = d :: ds) :
    ∃ r, strtok ':' s = some (d, r) ∧ pathDirs r = ds ∧ r.length < s.length := by
  cases hs : strtok ':' s with
  | none => rw [strtok_none_dirs s hs] at h; cases h
  | some tr =>
    obtain ⟨t, r⟩ := tr
    obtain ⟨h1, h2⟩ := strtok_some_dirs s t r hs
    rw [h1] at h
    cases h
    exact ⟨r, rfl, rfl, h2⟩

/-- The tokenizing loop ends when its bound exceeds the length of the rest, and
then `result` holds the directories in order, `i` is the last index stored and
`maxPathLen` the largest `strlen + 1`. -/
theorem tokenizeLoop_spec (fuel : Nat) :
    ∀ (path rest : CStr) (result : List CStr) (i m : Nat),
      rest.length < fuel → i = result.length →
      tokenizeLoop fuel path rest result i m =
        some (result ++ path :: pathDirs rest, i + (pathDirs rest).length,
              maxLen (path :: pathDirs rest) m) := by
  induction fuel with
  | zero => intro path rest result i m h; omega
  | succ n ih =>
    intro path rest result i m hlen hi
    subst hi
    cases hs : strtok ':' rest with
    | none =>
      simp [tokenizeLoop, hs, strtok_none_dirs rest hs, maxLen]
    | some tr =>
      obtain ⟨t, r⟩ := tr
      obtain ⟨h1, h2⟩ := strtok_some_dirs rest t r hs
      have hr : r.length < n := by omega
      simp only [tokenizeLoop, hs, List.take_length]
      rw [ih t r (result ++ [path]) (result.length + 1) _ hr (by simp)]
      simp [h1, maxLen, Nat.add_assoc, Nat.add_comm 1]

theorem le_maxLen (ds : List CStr) : ∀ m : Nat, m ≤ maxLen ds m := by
  induction ds with
  | nil => intro m; exact Nat.le_refl m
  | cons d ds ih =>
    intro m
    simp only [maxLen, List.foldl_cons]
    split
    · exact Nat.le_trans (by omega) (ih (d.length + 1))
    · exact ih m

theorem mem_le_maxLen (ds : List CStr) :
    ∀ (m : Nat) (d : CStr), d ∈ ds → d.length + 1 ≤ maxLen ds m := by
  induction ds with
  | nil => intro m d h; cases h
  | cons x xs ih =>
    intro m d h
    simp only [maxLen, List.foldl_cons]
    rcases List.mem_cons.1 h with rfl | h
    · split
      · exact le_maxLen xs _
      · exact Nat.le_trans (by omega) (le_maxLen xs m)
    · exact ih _ d h

theorem probeLoop_hit (probe : CStr → Bool) (cap : Nat) (name : CStr) :
    ∀ (pre : List CStr) (d : CStr) (post : List CStr) (init : Option CStr),
      (∀ x ∈ pre, (candidate x name).length + 1 ≤ cap) →
      (candidate d name).length + 1 ≤ cap →
      (∀ x ∈ pre, probe (candidate x name) = false) →
      probe (candidate d name) = true →
      probeLoop probe cap name (pre ++ d :: post) init = some (some (candidate d name)) := by
  intro pre
  induction pre with
  | nil =>
    intro d post init _ hfit _ hd
    have hc : ¬ cap < (candidate d name).length + 1 := by omega
    simp only [List.nil_append, probeLoop]
    rw [if_neg hc]
    simp [hd]
  | cons x xs ih =>
    intro d post init hfits hfit hpre hd
    have hx : ¬ cap < (candidate x name).length + 1 := by
      have := hfits x (List.mem_cons_self x xs)
      omega
    have hpx : probe (candidate x name) = false := hpre x (List.mem_cons_self x xs)
    simp only [List.cons_append, probeLoop]
    rw [if_neg hx]
    simp only [hpx, Bool.false_eq_true, if_false]
    exact ih d post _ (fun y hy => hfits y (List.mem_cons_of_mem x hy)) hfit
      (fun y hy => hpre y (List.mem_cons_of_mem x hy)) hd

theorem probeLoop_miss (probe : CStr → Bool) (cap : Nat) (name : CStr) :
    ∀ (ds : List CStr) (init : Option CStr),
      (∀ x ∈ ds, (candidate x name).length + 1 ≤ cap) →
      (∀ x ∈ ds, probe (candidate x name) = false) →
      probeLoop probe cap name ds init =
        some (match ds.getLast? with
              | some l => some (candidate l name)
              | none => init) := by
  intro ds
  induction ds with
  | nil => intro init _ _; rfl
  | cons x xs ih =>
    intro init hfits hall
    have hx : ¬ cap < (candidate x name).length + 1 := by
      have := hfits x (List.mem_cons_self x xs)
      omega
    have hpx : probe (candidate x name) = false := hall x (List.mem_cons_self x xs)
    simp only [probeLoop]
    rw [if_neg hx]
    simp only [hpx, Bool.false_eq_true, if_false]
    rw [ih _ (fun y hy => hfits y (List.mem_cons_of_mem x hy))
      (fun y hy => hall y (List.mem_cons_of_mem x hy))]
    cases xs with
    | nil => rfl
    | cons y ys =>
      rw [List.getLast?_cons_cons]
      cases h : (y :: ys).getLast? with
      | none => simp at h
      | some l => rfl

theorem candidate_fits (ds : List CStr) (name d : CStr) (h : d ∈ ds) :
    (candidate d name).length + 1 ≤ maxLen ds 0 + 2 + name.length := by
  have := mem_le_maxLen ds 0 d h
  have h1 : "/".toList.length = 1 := rfl
  simp only [candidate, List.length_append, h1]
  omega

/-- The function `shell_exec` once `PATH` is known to hold the directories
`d0 :: ds`: the tokenizing loop has run to its end and what is left is the
choice of `arg[0]` and the launch. -/
theorem shell_exec_eq (os : OS) (st : State) (p d0 : CStr) (ds : List CStr)
    (name : CStr) (args : List CStr)
    (hP : os.PATH = some p) (hd : pathDirs p = d0 :: ds) :
    shell_exec os st (name :: args) =
      match (if os.access_X_OK st.cwd name then some (some name)
             else probeLoop (os.access_X_OK st.cwd) (maxLen (d0 :: ds) 0 + 2 + name.length)
                    name (d0 :: ds) none) with
      | none => Outcome.undefined
      | some none => Outcome.undefined
      | some (some a0) => forkExec os st a0 args := by
  obtain ⟨r, hr, hrd, hlen⟩ := strtok_of_dirs p d0 ds hd
  have ht := tokenizeLoop_spec (p.length + 1) d0 r [] 0 0 (by omega) rfl
  simp only [shell_exec, splitPath, hP, hr, ht, hrd, List.nil_append]
  have htake : List.take (0 + ds.length + 1) (d0 :: ds) = d0 :: ds := by
    apply List.take_of_length_le
    simp
  rw [htake]

/-! ## C2: `PATH` order is the resolution priority -/

/-- C2. For every `PATH` value and every command name that is not directly
executable, if `d` is the first directory in `PATH` order whose candidate
`d/name` passes the executability probe, then `shell_exec` launches with the
argument vector `d/name :: args`: in the child (`fork` returned `0`) the call
is `execv(d/name, d/name :: args)`. -/
theorem C2_path_order_priority (os : OS) (st : State) (p name : CStr) (args : List CStr)
    (pre : List CStr) (d : CStr) (post : List CStr)
    (hP : os.PATH = some p)
    (hdirs : pathDirs p = pre ++ d :: post)
    (hdirect : os.access_X_OK st.cwd name = false)
    (hpre : ∀ x ∈ pre, os.access_X_OK st.cwd (x ++ "/".toList ++ name) = false)
    (hd : os.access_X_OK st.cwd (d ++ "/".toList ++ name) = true) :
    shell_exec os st (name :: args) = forkExec os st (d ++ "/".toList ++ name) args ∧
    (os.fork = 0 →
      shell_exec os st (name :: args) =
        match os.execv (d ++ "/".toList ++ name) with
        | none =>
          Outcome.image
            { cwd := st.cwd, out := st.out,
              calls := st.calls ++ [Syscall.fork,
                Syscall.execv (d ++ "/".toList ++ name) ((d ++ "/".toList ++ name) :: args)] }
        | some e =>
          Outcome.exit e
            { cwd := st.cwd, out := st.out,
              calls := st.calls ++ [Syscall.fork,
                Syscall.execv (d ++ "/".toList ++ name) ((d ++ "/".toList ++ name) :: args)] }) := by
  have hmain : shell_exec os st (name :: args) =
      forkExec os st (d ++ "/".toList ++ name) args := by
    have hne : ∃ d0 ds, pathDirs p = d0 :: ds := by
      cases hp : pathDirs p with
      | nil => rw [hp] at hdirs; simp at hdirs
      | cons d0 ds => exact ⟨d0, ds, rfl⟩
    obtain ⟨d0, ds, h0⟩ := hne
    rw [shell_exec_eq os st p d0 ds name args hP h0]
    have hall : d0 :: ds = pre ++ d :: post := by rw [← h0, hdirs]
    have hfit : ∀ x ∈ d0 :: ds,
        (candidate x name).length + 1 ≤ maxLen (d0 :: ds) 0 + 2 + name.length :=
      fun x hx => candidate_fits (d0 :: ds) name x hx
    have hprobe := probeLoop_hit (os.access_X_OK st.cwd)
      (maxLen (d0 :: ds) 0 + 2 + name.length) name pre d post none
      (fun x hx => hfit x (by rw [hall]; exact List.mem_append_left _ hx))
      (hfit d (by rw [hall]; simp))
      hpre hd
    rw [← hall] at hprobe
    simp only [hdirect, Bool.false_eq_true, if_false, hprobe]
    rfl
  refine ⟨hmain, ?_⟩
  intro hchild
  rw [hmain]
  simp only [forkExec, hchild, if_true, List.append_assoc, List.singleton_append]

/-- C2 on the example of the specification: with `PATH = "/usr/bin:/bin"` and
`ls` executable only as `/bin/ls`, the child executes `/bin/ls`. -/
theorem C2_path_order_priority_witness :
    shell_exec os1 st1 ["ls".toList, "-l".toList] =
      Outcome.image
        { cwd := "/a/b/c".toList, out := [],
          calls := [Syscall.fork,
            Syscall.execv "/bin/ls".toList ["/bin/ls".toList, "-l".toList]] } :=
  (C2_path_order_priority os1 st1 "/usr/bin:/bin".toList "ls".toList ["-l".toList]
    ["/usr/bin".toList] "/bin".toList [] rfl (by decide) (by decide) (by decide)
    (by decide)).2 rfl

/-! ## C3: a name that resolves nowhere -/

/-- C3 fails on the code. In the sample system `nope` is neither directly
executable nor executable under a directory of `PATH = "/usr/bin:/bin"`; yet the
parent (`fork` returned `7`) has called `fork` and `wait` and printed nothing,
and the child (`fork` returned `0`) has called `execv` on `/bin/nope` and exits
with the error code of that call. -/
theorem C3_counterexample :
    os1.access_X_OK st1.cwd "nope".toList = false ∧
    (∀ d ∈ pathDirs "/usr/bin:/bin".toList,
      os1.access_X_OK st1.cwd (d ++ "/".toList ++ "nope".toList) = false) ∧
    shell_exec { os1 with fork := 7 } st1 ["nope".toList, "-l".toList] =
      Outcome.ret 0
        { cwd := "/a/b/c".toList, out := [], calls := [Syscall.fork, Syscall.wait] } ∧
    shell_exec os1 st1 ["nope".toList, "-l".toList] =
      Outcome.exit 2
        { cwd := "/a/b/c".toList, out := [],
          calls := [Syscall.fork,
            Syscall.execv "/bin/nope".toList ["/bin/nope".toList, "-l".toList]] } := by
  refine ⟨by decide, by decide, by decide, by decide⟩

/-- C3, amended. For every command name that is neither directly executable
nor executable under any directory of `PATH` (`PATH` holding at least one
directory), `shell_exec` prints nothing and still launches: it forks with the
candidate of the last `PATH` directory as `arg[0]`; the child calls `execv` on
that candidate and exits with the error code when the call fails; the parent
waits and returns `0`, and the loop body `runLine` returns the same way when the
name is not a built-in, so the driver goes on with the next line. -/
theorem C3_unresolved_name_is_launched (os : OS) (st : State) (p name : CStr)
    (args : List CStr) (hP : os.PATH = some p) (hne : pathDirs p ≠ [])
    (hdirect : os.access_X_OK st.cwd name = false)
    (hall : ∀ x ∈ pathDirs p, os.access_X_OK st.cwd (x ++ "/".toList ++ name) = false) :
    shell_exec os st (name :: args) =
      forkExec os st ((pathDirs p).getLast hne ++ "/".toList ++ name) args ∧
    (os.fork = 0 →
      shell_exec os st (name :: args) =
        match os.execv ((pathDirs p).getLast hne ++ "/".toList ++ name) with
        | none =>
          Outcome.image
            { cwd := st.cwd, out := st.out,
              calls := st.calls ++ [Syscall.fork,
                Syscall.execv ((pathDirs p).getLast hne ++ "/".toList ++ name)
                  (((pathDirs p).getLast hne ++ "/".toList ++ name) :: args)] }
        | some e =>
          Outcome.exit e
            { cwd := st.cwd, out := st.out,
              calls := st.calls ++ [Syscall.fork,
                Syscall.execv ((pathDirs p).getLast hne ++ "/".toList ++ name)
                  (((pathDirs p).getLast hne ++ "/".toList ++ name) :: args)] }) ∧
    (os.fork ≠ 0 →
      shell_exec os st (name :: args) =
        Outcome.ret 0
          { cwd := st.cwd, out := st.out,
            calls := st.calls ++ [Syscall.fork, Syscall.wait] }) ∧
    (os.fork ≠ 0 → lookup (some name) = -1 →
      runLine os st (name :: args) =
        Outcome.ret 0
          { cwd := st.cwd, out := st.out,
            calls := st.calls ++ [Syscall.fork, Syscall.wait] }) := by
  have hmain : shell_exec os st (name :: args) =
      forkExec os st ((pathDirs p).getLast hne ++ "/".toList ++ name) args := by
    have hex : ∃ d0 ds, pathDirs p = d0 :: ds := by
      cases hp : pathDirs p with
      | nil => exact absurd hp hne
      | cons d0 ds => exact ⟨d0, ds, rfl⟩
    obtain ⟨d0, ds, h0⟩ := hex
    rw [shell_exec_eq os st p d0 ds name args hP h0]
    have hprobe := probeLoop_miss (os.access_X_OK st.cwd)
      (maxLen (d0 :: ds) 0 + 2 + name.length) name (d0 :: ds) none
      (fun x hx => candidate_fits (d0 :: ds) name x hx)
      (fun x hx => hall x (by rw [h0]; exact hx))
    have hlast : (d0 :: ds).getLast? = some ((pathDirs p).getLast hne) := by
      rw [List.getLast?_eq_getLast _ (by simp)]
      simp only [h0]
    rw [hlast] at hprobe
    simp only [hdirect, Bool.false_eq_true, if_false, hprobe]
    rfl
  have hparent : os.fork ≠ 0 → shell_exec os st (name :: args) =
      Outcome.ret 0
        { cwd := st.cwd, out := st.out,
          calls := st.calls ++ [Syscall.fork, Syscall.wait] } := by
    intro hf
    rw [hmain]
    simp [forkExec, hf]
  refine ⟨hmain, ?_, hparent, ?_⟩
  · intro hchild
    rw [hmain]
    simp only [forkExec, hchild, if_true, List.append_assoc, List.singleton_append]
  · intro hf hl
    have : runLine os st (name :: args) = shell_exec os st (name :: args) := by
      simp [runLine, tokens_get_token, hl]
    rw [this]
    exact hparent hf

/-- C3, amended, in the sample system: `nope` resolves nowhere; the parent
forks, waits and returns `0` without printing. -/
theorem C3_unresolved_name_is_launched_witness :
    shell_exec { os1 with fork := 7 } st1 ["nope".toList, "-l".toList] =
      Outcome.ret 0
        { cwd := "/a/b/c".toList, out := [], calls := [Syscall.fork, Syscall.wait] } :=
  (C3_unresolved_name_is_launched { os1 with fork := 7 } st1 "/usr/bin:/bin".toList
    "nope".toList ["-l".toList] rfl (by decide) (by decide) (by decide)).2.2.1 (by decide)

/-! ## C4: a directly executable name -/

/-- C4 fails on the code. `./prog` passes the executability probe, but with
`PATH` empty (or unset) `shell_exec` runs into undefined behaviour before it
probes anything: `strtok` returns `NULL` and `strlen` is applied to it (or
`strlen` is applied to the `NULL` that `getenv` returned). -/
theorem C4_counterexample :
    os1.access_X_OK st1.cwd "./prog".toList = true ∧
    shell_exec { os1 with PATH := some [] } st1 ["./prog".toList] = Outcome.undefined ∧
    shell_exec { os1 with PATH := some ":".toList } st1 ["./prog".toList] = Outcome.undefined ∧
    shell_exec { os1 with PATH := none } st1 ["./prog".toList] = Outcome.undefined := by
  refine ⟨by decide, by decide, by decide, by decide⟩

/-- C4, amended. For every command name that passes the executability probe
itself, and every `PATH` value that holds at least one directory, `shell_exec`
launches with the name unchanged as `arg[0]`: in the child the call is
`execv(name, name :: args)`. -/
theorem C4_direct_name_unchanged (os : OS) (st : State) (p name : CStr) (args : List CStr)
    (hP : os.PATH = some p) (hne : pathDirs p ≠ [])
    (hdirect : os.access_X_OK st.cwd name = true) :
    shell_exec os st (name :: args) = forkExec os st name args ∧
    (os.fork = 0 →
      shell_exec os st (name :: args) =
        match os.execv name with
        | none =>
          Outcome.image
            { cwd := st.cwd, out := st.out,
              calls := st.calls ++ [Syscall.fork, Syscall.execv name (name :: args)] }
        | some e =>
          Outcome.exit e
            { cwd := st.cwd, out := st.out,
              calls := st.calls ++ [Syscall.fork, Syscall.execv name (name :: args)] }) := by
  have hmain : shell_exec os st (name :: args) = forkExec os st name args := by
    have hex : ∃ d0 ds, pathDirs p = d0 :: ds := by
      cases hp : pathDirs p with
      | nil => exact absurd hp hne
      | cons d0 ds => exact ⟨d0, ds, rfl⟩
    obtain ⟨d0, ds, h0⟩ := hex
    rw [shell_exec_eq os st p d0 ds name args hP h0]
    simp only [hdirect, if_true]
  refine ⟨hmain, ?_⟩
  intro hchild
  rw [hmain]
  simp only [forkExec, hchild, if_true, List.append_assoc, List.singleton_append]

/-- C4, amended, in the sample system: `./prog` is executed as `./prog`. -/
theorem C4_direct_name_unchanged_witness :
    shell_exec os1 st1 ["./prog".toList, "-l".toList] =
      Outcome.exit 2
        { cwd := "/a/b/c".toList, out := [],
          calls := [Syscall.fork,
            Syscall.execv "./prog".toList ["./prog".toList, "-l".toList]] } :=
  (C4_direct_name_unchanged os1 st1 "/usr/bin:/bin".toList "./prog".toList ["-l".toList]
    rfl (by decide) (by decide)).2 rfl

/-! ## Lemmas on `cmd_cd` -/

theorem scanBack_hit (buf : CStr) (n : Nat) (h : buf[n]? = some '/') :
    scanBack buf n = some n := by
  cases n with
  | zero => simp [scanBack, h]
  | succ k => simp [scanBack, h]

theorem scanBack_step (buf : CStr) (n : Nat) (h : buf[n + 1]? ≠ some '/') :
    scanBack buf (n + 1) = scanBack buf n := by
  simp [scanBack, h]

/-- The backward scan over a slash-free segment stops at the slash before it. -/
theorem scanBack_segment (a : CStr) (seg : CStr) :
    ∀ rest : CStr, '/' ∉ seg →
      scanBack (a ++ '/' :: (seg ++ rest)) (a.length + seg.length) = some a.length := by
  induction seg using List.reverseRecOn with
  | nil =>
    intro rest _
    apply scanBack_hit
    rw [List.nil_append, List.length_nil, Nat.add_zero,
      List.getElem?_append_right (Nat.le_refl _)]
    simp
  | append_singleton init x ih =>
    intro rest hno
    have hx : x ≠ '/' := by
      intro h
      apply hno
      simp [h]
    have hinit : '/' ∉ init := by
      intro h
      apply hno
      simp [h]
    have hlen : a.length + (init ++ [x]).length = (a.length + init.length) + 1 := by
      simp [Nat.add_assoc]
    rw [hlen, scanBack_step]
    · have := ih (x :: rest) hinit
      simpa using this
    · have hidx : (a ++ '/' :: (init ++ [x] ++ rest))[a.length + init.length + 1]? = some x := by
        have e : a ++ '/' :: (init ++ [x] ++ rest) = (a ++ '/' :: init) ++ (x :: rest) := by simp
        rw [e, List.getElem?_append_right (by simp [Nat.add_assoc])]
        simp [Nat.add_assoc]
      rw [hidx]
      simpa using hx

/-- The end of `cmd_cd` always returns `1` after exactly one `chdir` call, on
the path it was given. -/
theorem chdirReport_calls (os : OS) (st : State) (arg buf : CStr) :
    ∃ st2, chdirReport os st arg buf = Outcome.ret 1 st2 ∧
      st2.calls = st.calls ++ [Syscall.chdir (some buf)] := by
  cases buf with
  | nil => exact ⟨_, rfl, rfl⟩
  | cons c cs =>
    cases h : os.chdir st.cwd (c :: cs) with
    | none =>
      simp only [chdirReport, sys_chdir, h]
      exact ⟨_, rfl, rfl⟩
    | some d =>
      simp only [chdirReport, sys_chdir, h]
      exact ⟨_, rfl, rfl⟩

theorem getcwd_fits (cwd : CStr) (h : cwd.length + 1 ≤ BUFSIZE) :
    getcwd cwd BUFSIZE = some cwd := by
  simp only [getcwd]
  rw [if_pos h]

/-- With an argument and a working directory that does not fit the buffer,
`cmd_cd` reads the buffer `getcwd` left unwritten. -/
theorem cmd_cd_long_cwd (os : OS) (st : State) (name a : CStr)
    (h : BUFSIZE < st.cwd.length + 1) :
    cmd_cd os st [name, a] = Outcome.undefined := by
  have hg : getcwd st.cwd BUFSIZE = none := by
    simp only [getcwd]
    rw [if_neg (Nat.not_le.2 h)]
  have h2 : ¬ (2 < 2) := by decide
  simp only [cmd_cd, hg, tokens_get_length, tokens_get_token, List.length_cons,
    List.length_nil]
  rw [if_neg h2]
  simp

/-- The function `cmd_cd` on the argument `..`, while the working directory
and the slash appended to it fit the buffer: the buffer is cut at the last
slash of the working directory. -/
theorem cmd_cd_dotdot (os : OS) (st : State) (name parent seg : CStr)
    (hcwd : st.cwd = parent ++ "/".toList ++ seg) (hno : '/' ∉ seg)
    (hfit : st.cwd.length + 2 ≤ BUFSIZE) :
    cmd_cd os st [name, "..".toList] = chdirReport os st "..".toList parent := by
  have hlen : st.cwd.length = (parent.length + seg.length) + 1 := by
    have h1 : "/".toList.length = 1 := rfl
    rw [hcwd]
    simp only [List.length_append, h1]
    omega
  have hg : getcwd st.cwd BUFSIZE = some st.cwd := getcwd_fits _ (by omega)
  have hb : ¬ BUFSIZE ≤ st.cwd.length + 1 := by omega
  have h2 : ¬ (2 < 2) := by decide
  have h1 : strcmp "..".toList ".".toList ≠ 0 := by decide
  have hscan : scanBack (st.cwd ++ ['/']) (parent.length + seg.length) = some parent.length := by
    have := scanBack_segment parent seg ['/'] hno
    rw [hcwd]
    simpa using this
  have htake : (st.cwd ++ ['/']).take parent.length = parent := by
    rw [hcwd]
    simp [List.append_assoc]
  simp only [cmd_cd, hg, tokens_get_length, tokens_get_token, List.length_cons,
    List.length_nil]
  rw [if_neg h2]
  simp only [List.getElem?_cons_succ, List.getElem?_cons_zero]
  rw [if_neg hb, if_neg h1, if_pos (strcmp_self _)]
  rw [hlen]
  simp only [hscan, htake]

/-- The function `cmd_cd` on an argument other than `.` and `..`, while the
working directory, a slash, the argument and the NUL fit the buffer: the
argument is appended to the working directory and the slash. -/
theorem cmd_cd_other (os : OS) (st : State) (name a : CStr)
    (hdot : a ≠ ".".toList) (hdotdot : a ≠ "..".toList)
    (hfit : st.cwd.length + a.length + 2 ≤ BUFSIZE) :
    cmd_cd os st [name, a] = chdirReport os st a (st.cwd ++ "/".toList ++ a) := by
  have hg : getcwd st.cwd BUFSIZE = some st.cwd := getcwd_fits _ (by omega)
  have hb : ¬ BUFSIZE ≤ st.cwd.length + 1 := by omega
  have h0 : ¬ (2 < 2) := by decide
  have h1 : strcmp a ".".toList ≠ 0 := fun h => hdot ((strcmp_eq_zero_iff _ _).1 h)
  have h2 : strcmp a "..".toList ≠ 0 := fun h => hdotdot ((strcmp_eq_zero_iff _ _).1 h)
  have h3 : ¬ BUFSIZE < (st.cwd ++ ['/']).length + a.length + 1 := by
    simp only [List.length_append, List.length_singleton]
    omega
  simp only [cmd_cd, hg, tokens_get_length, tokens_get_token, List.length_cons,
    List.length_nil]
  rw [if_neg h0]
  simp only [List.getElem?_cons_succ, List.getElem?_cons_zero]
  rw [if_neg hb, if_neg h1, if_neg h2, if_neg h3]
  rfl

/-! ## C5: `cd ..` -/

/-- C5 fails on the code. The working directory is absolute, has two segments
and no trailing slash, but is 302 characters long: `getcwd` fails on the buffer
of 256 bytes, `cmd_cd` does not check that, and its scan reads the unwritten
buffer. -/
theorem C5_counterexample :
    cmd_cd os1
      { cwd := '/' :: List.replicate 200 'a' ++ '/' :: List.replicate 100 'b',
        out := [], calls := [] }
      ["cd".toList, "..".toList] = Outcome.undefined := by
  apply cmd_cd_long_cwd
  simp only [List.length_cons, List.length_append, List.length_replicate, BUFSIZE]
  omega

/-- C5, amended. For every absolute working directory with at least two
segments and no trailing slash, written `parent/seg`, that fits the buffer of
`cmd_cd` together with the slash appended to it (length at most
`BUFSIZE - 2`), `cd ..` passes `parent` to the directory change: the call
`chdir(parent)` is the one system call, and `cmd_cd` returns `1`. -/
theorem C5_cd_dotdot_removes_last_segment (os : OS) (st : State) (name parent seg : CStr)
    (hcwd : st.cwd = parent ++ "/".toList ++ seg)
    (habs : parent.head? = some '/') (hseg : seg ≠ []) (hno : '/' ∉ seg)
    (hfit : st.cwd.length + 2 ≤ BUFSIZE) :
    cmd_cd os st [name, "..".toList] = chdirReport os st "..".toList parent ∧
    ∃ st2, cmd_cd os st [name, "..".toList] = Outcome.ret 1 st2 ∧
      st2.calls = st.calls ++ [Syscall.chdir (some parent)] := by
  have _ := habs
  have _ := hseg
  have h := cmd_cd_dotdot os st name parent seg hcwd hno hfit
  refine ⟨h, ?_⟩
  rw [h]
  exact chdirReport_calls os st "..".toList parent

/-- C5, amended, on the example of the specification: from `/a/b/c` the
target of `cd ..` is `/a/b`. -/
theorem C5_cd_dotdot_removes_last_segment_witness :
    cmd_cd os1 st1 ["cd".toList, "..".toList] =
      chdirReport os1 st1 "..".toList "/a/b".toList :=
  (C5_cd_dotdot_removes_last_segment os1 st1 "cd".toList "/a/b".toList "c".toList
    rfl rfl (by decide) (by decide) (by decide)).1

/-! ## C6: `cd ..` next to the root -/

/-- C6 fails on the code, whatever the system answers. From `/a` the buffer is
cut at its first slash, so the target of `cd ..` is the empty path and not `/`;
the same happens from `/`. The call `chdir("")` fails, the diagnostic is
printed and the working directory stays `/a`. -/
theorem C6_dotdot_at_root_gives_empty_path (os : OS) :
    cmd_cd os { cwd := "/a".toList, out := [], calls := [] } ["cd".toList, "..".toList] =
      Outcome.ret 1
        { cwd := "/a".toList,
          out := "bash: cd: ..: No such file or directory\n".toList,
          calls := [Syscall.chdir (some [])] } ∧
    cmd_cd os { cwd := "/".toList, out := [], calls := [] } ["cd".toList, "..".toList] =
      Outcome.ret 1
        { cwd := "/".toList,
          out := "bash: cd: ..: No such file or directory\n".toList,
          calls := [Syscall.chdir (some [])] } := by
  constructor <;> rfl

/-! ## C8: `cd` with an ordinary argument -/

/-- C8 fails on the code. With the working directory `/a/b/c` and the absolute
argument `/etc`, the path `cmd_cd` tries to change into is `/a/b/c//etc`, not
`/etc`. -/
theorem C8_counterexample :
    cmd_cd os1 st1 ["cd".toList, "/etc".toList] =
      chdirReport os1 st1 "/etc".toList "/a/b/c//etc".toList ∧
    cmd_cd os1 st1 ["cd".toList, "/etc".toList] ≠
      chdirReport os1 st1 "/etc".toList "/etc".toList := by
  constructor <;> decide

/-- C8, amended. For every working directory `cwd` and every argument `a` other
than `.` and `..` that does not begin with `/`, such that `cwd`, one slash, `a`
and the terminating NUL fit the buffer of `cmd_cd`
(`length cwd + length a + 2 ≤ BUFSIZE`), the path `cmd_cd` tries to change
into is `cwd` joined with `a` by one slash. -/
theorem C8_cd_relative_target (os : OS) (st : State) (name a : CStr)
    (hdot : a ≠ ".".toList) (hdotdot : a ≠ "..".toList) (hrel : a.head? ≠ some '/')
    (hfit : st.cwd.length + a.length + 2 ≤ BUFSIZE) :
    cmd_cd os st [name, a] = chdirReport os st a (st.cwd ++ "/".toList ++ a) ∧
    ∃ st2, cmd_cd os st [name, a] = Outcome.ret 1 st2 ∧
      st2.calls = st.calls ++ [Syscall.chdir (some (st.cwd ++ "/".toList ++ a))] := by
  have _ := hrel
  have h := cmd_cd_other os st name a hdot hdotdot hfit
  refine ⟨h, ?_⟩
  rw [h]
  exact chdirReport_calls os st a _

/-- C8, amended, at a concrete input: from `/a/b/c` the target of `cd d` is
`/a/b/c/d`. -/
theorem C8_cd_relative_target_witness :
    cmd_cd os1 st1 ["cd".toList, "d".toList] =
      chdirReport os1 st1 "d".toList ("/a/b/c".toList ++ "/".toList ++ "d".toList) :=
  (C8_cd_relative_target os1 st1 "cd".toList "d".toList (by decide) (by decide) (by decide)
    (by decide)).1

/-! ## C9: `cd` without argument -/

/-- C9. For every token sequence that holds the command name only, and every
state (so every working directory), `cmd_cd` returns after exactly one
directory change, whose target is the value of `HOME`. -/
theorem C9_cd_no_argument_goes_home (os : OS) (st : State) (name : CStr) :
    cmd_cd os st [name] = Outcome.ret 0 (sys_chdir os st os.HOME).1 ∧
    (sys_chdir os st os.HOME).1.calls = st.calls ++ [Syscall.chdir os.HOME] ∧
    (sys_chdir os st os.HOME).1.out = st.out ∧
    (∀ h d : CStr, os.HOME = some h → h ≠ [] → os.chdir st.cwd h = some d →
      (sys_chdir os st os.HOME).1.cwd = d) := by
  refine ⟨by simp [cmd_cd, tokens_get_length], ?_, ?_, ?_⟩
  · cases hh : os.HOME with
    | none => rfl
    | some h =>
      cases h with
      | nil => rfl
      | cons c cs => cases hc : os.chdir st.cwd (c :: cs) <;> simp [sys_chdir, hc]
  · cases hh : os.HOME with
    | none => rfl
    | some h =>
      cases h with
      | nil => rfl
      | cons c cs => cases hc : os.chdir st.cwd (c :: cs) <;> simp [sys_chdir, hc]
  · intro h d hh hne hc
    cases h with
    | nil => exact absurd rfl hne
    | cons c cs => simp [sys_chdir, hh, hc]

/-- C9 in the sample system: `cd` alone leads from `/a/b/c` to `/home/u`. -/
theorem C9_cd_no_argument_goes_home_witness :
    (sys_chdir os1 st1 os1.HOME).1.cwd = "/home/u".toList :=
  (C9_cd_no_argument_goes_home os1 st1 "cd".toList).2.2.2 "/home/u".toList "/home/u".toList
    rfl (by decide) rfl

/-! ## C10: `cd .` -/

/-- C10 fails on the code. With a working directory of 302 characters `getcwd`
fails on the buffer of 256 bytes, and `cmd_cd` scans the unwritten buffer and
stores into it before it compares the argument with `.`. -/
theorem C10_counterexample :
    cmd_cd os1
      { cwd := '/' :: List.replicate 200 'a' ++ '/' :: List.replicate 100 'b',
        out := [], calls := [] }
      ["cd".toList, ".".toList] = Outcome.undefined := by
  apply cmd_cd_long_cwd
  simp only [List.length_cons, List.length_append, List.length_replicate, BUFSIZE]
  omega

/-- C10, amended. For every working directory that fits the buffer of `cmd_cd`
together with the slash appended to it (length at most `BUFSIZE - 2`), `cd .`
returns `1` in the state it started from: no directory change is issued,
nothing is printed, and the working directory is unchanged. -/
theorem C10_cd_dot_is_noop (os : OS) (st : State) (name : CStr)
    (hfit : st.cwd.length + 2 ≤ BUFSIZE) :
    cmd_cd os st [name, ".".toList] = Outcome.ret 1 st := by
  have hg : getcwd st.cwd BUFSIZE = some st.cwd := getcwd_fits _ (by omega)
  have hb : ¬ BUFSIZE ≤ st.cwd.length + 1 := by omega
  have h0 : ¬ (2 < 2) := by decide
  simp only [cmd_cd, hg, tokens_get_length, tokens_get_token, List.length_cons,
    List.length_nil]
  rw [if_neg h0]
  simp only [List.getElem?_cons_succ, List.getElem?_cons_zero]
  rw [if_neg hb, if_pos (strcmp_self _)]

/-- C10, amended, at a concrete input: `cd .` from `/a/b/c` changes nothing. -/
theorem C10_cd_dot_is_noop_witness :
    cmd_cd os1 st1 ["cd".toList, ".".toList] = Outcome.ret 1 st1 :=
  C10_cd_dot_is_noop os1 st1 "cd".toList (by decide)

/-! ## Lemmas on pathnames -/

theorem segments_ne_nil (sep : Char) (s : CStr) : segments sep s ≠ [] := by
  cases s with
  | nil => simp [segments]
  | cons c cs =>
    by_cases h : c = sep
    · simp [segments, h]
    · simp only [segments, if_neg h]
      cases segments sep cs <;> simp

theorem segments_append_sep (sep : Char) (a b : CStr) :
    segments sep (a ++ sep :: b) = segments sep a ++ segments sep b := by
  induction a with
  | nil => simp [segments]
  | cons c cs ih =>
    by_cases h : c = sep
    · simp [segments, h, ih]
    · have e1 : ∀ l : CStr, segments sep (c :: l) =
          match segments sep l with
          | [] => [[c]]
          | x :: t => (c :: x) :: t := by
        intro l
        simp only [segments, if_neg h]
      rw [List.cons_append, e1, e1, ih]
      cases hs : segments sep cs with
      | nil => exact absurd hs (segments_ne_nil sep cs)
      | cons x xs => rfl

theorem segments_of_not_mem (sep : Char) (s : CStr) (h : sep ∉ s) :
    segments sep s = [s] := by
  induction s with
  | nil => rfl
  | cons c cs ih =>
    have hc : c ≠ sep := by
      intro e
      apply h
      simp [e]
    have hcs : sep ∉ cs := by
      intro e
      apply h
      simp [e]
    simp [segments, hc, ih hcs]

theorem components_append_slash (a b : CStr) :
    components (a ++ '/' :: b) = components a ++ components b := by
  simp [components, segments_append_sep]

theorem components_nil : components [] = [] := by
  simp [components, segments]

theorem components_slash_cons (b : CStr) : components ('/' :: b) = components b := by
  have := components_append_slash [] b
  simpa [components_nil] using this

theorem components_single (s : CStr) (hne : s ≠ []) (hno : '/' ∉ s) :
    components s = [s] := by
  simp [components, segments_of_not_mem '/' s hno, hne]

theorem components_name_append_slashed (s : CStr) (t : List CStr)
    (hne : s ≠ []) (hno : '/' ∉ s) :
    components (s ++ slashed t) = s :: components (slashed t) := by
  cases t with
  | nil => simp [slashed, components_single s hne hno, components_nil]
  | cons u v =>
    simp only [slashed]
    rw [components_append_slash, components_single s hne hno, components_slash_cons]
    rfl

theorem components_slashed (segs : List CStr) (h : ∀ s ∈ segs, isName s) :
    components (slashed segs) = segs := by
  induction segs with
  | nil => exact components_nil
  | cons s t ih =>
    have hs : isName s := h s (List.mem_cons_self s t)
    simp only [slashed]
    rw [components_slash_cons, components_name_append_slashed s t hs.1 hs.2.1,
      ih (fun x hx => h x (List.mem_cons_of_mem s hx))]

theorem components_absPath (segs : List CStr) (h : ∀ s ∈ segs, isName s) :
    components (absPath segs) = segs := by
  cases segs with
  | nil => simp [absPath, components_slash_cons, components_nil]
  | cons s t => exact components_slashed (s :: t) h

theorem components_joinSlash (xs : List CStr) (h : ∀ s ∈ xs, s ≠ [] ∧ '/' ∉ s) :
    components (joinSlash xs) = xs := by
  induction xs with
  | nil => exact components_nil
  | cons s t ih =>
    have hs := h s (List.mem_cons_self s t)
    cases t with
    | nil => exact components_single s hs.1 hs.2
    | cons u v =>
      simp only [joinSlash]
      rw [components_append_slash, components_single s hs.1 hs.2,
        ih (fun x hx => h x (List.mem_cons_of_mem s hx))]
      rfl

theorem walk_names (names : List CStr) :
    ∀ dir : List CStr, (∀ s ∈ names, isName s) → walk dir names = dir ++ names := by
  induction names with
  | nil => intro dir _; simp [walk]
  | cons c cs ih =>
    intro dir h
    have hc : isName c := h c (List.mem_cons_self c cs)
    simp only [walk, if_neg hc.2.2.2, if_neg hc.2.2.1]
    rw [ih _ (fun x hx => h x (List.mem_cons_of_mem c hx))]
    simp

theorem walk_append (a b : List CStr) :
    ∀ dir : List CStr, walk dir (a ++ b) = walk (walk dir a) b := by
  induction a with
  | nil => intro dir; rfl
  | cons c cs ih =>
    intro dir
    simp only [List.cons_append, walk]
    split
    · exact ih _
    · split
      · exact ih _
      · exact ih _

theorem walk_dotdots (k : Nat) :
    ∀ dir : List CStr,
      walk dir (List.replicate k "..".toList) = dir.take (dir.length - k) := by
  induction k with
  | zero => intro dir; simp [walk]
  | succ n ih =>
    intro dir
    simp only [List.replicate_succ, walk, if_true]
    rw [ih, List.dropLast_eq_take, List.take_take, List.length_take]
    congr 1
    omega

theorem joinSlash_dotdots_length (k : Nat) (lits : List CStr) (hk : 2 ≤ k) :
    3 ≤ (joinSlash (List.replicate k "..".toList ++ lits)).length := by
  obtain ⟨n, rfl⟩ : ∃ n, k = n + 2 := ⟨k - 2, by omega⟩
  have h2 : "..".toList.length = 2 := rfl
  simp only [List.replicate_succ, List.cons_append, joinSlash, List.length_append,
    List.length_cons, h2]
  omega

/-! ## C7: several `..` in the argument of `cd` -/

/-- A directory change on a non-empty path that the system grants: the call is
recorded and the working directory is the one the system leads to. -/
theorem chdirReport_ok (os : OS) (st : State) (arg buf d : CStr) (hne : buf ≠ [])
    (hos : os.chdir st.cwd buf = some d) :
    chdirReport os st arg buf =
      Outcome.ret 1
        { cwd := d, out := st.out, calls := st.calls ++ [Syscall.chdir (some buf)] } := by
  cases buf with
  | nil => exact absurd rfl hne
  | cons c cs => simp only [chdirReport, sys_chdir, hos]

/-- The lexical resolution of the path `cmd_cd` builds from a working directory
of names `segs` and an argument of `k` segments `..` followed by the names
`lits`: one name is removed per `..`, none below the root. -/
theorem resolveAbs_dotdots (segs lits : List CStr) (k : Nat)
    (hsegs : ∀ s ∈ segs, isName s) (hlits : ∀ s ∈ lits, isName s) :
    resolveAbs (absPath segs ++ "/".toList ++
        joinSlash (List.replicate k "..".toList ++ lits)) =
      segs.take (segs.length - min k segs.length) ++ lits := by
  have hparts : ∀ s ∈ List.replicate k "..".toList ++ lits, s ≠ [] ∧ '/' ∉ s := by
    intro s hs
    rcases List.mem_append.1 hs with h | h
    · rw [List.eq_of_mem_replicate h]
      decide
    · exact ⟨(hlits s h).1, (hlits s h).2.1⟩
  have hsl : absPath segs ++ "/".toList ++ joinSlash (List.replicate k "..".toList ++ lits) =
      absPath segs ++ '/' :: joinSlash (List.replicate k "..".toList ++ lits) := by
    simp
  rw [resolveAbs, hsl, components_append_slash, components_absPath segs hsegs,
    components_joinSlash _ hparts, walk_append, walk_names segs [] hsegs, List.nil_append,
    walk_append, walk_dotdots, walk_names lits _ hlits]
  congr 2
  omega

/-- C7 fails on the code. The working directory has depth three and is 303
characters long, the argument is `../..`; the claim has `cmd_cd` change into
the directory of depth one, `/aa...a`. But `getcwd` fails on the buffer of 256
bytes, `cmd_cd` does not check that, and the path it hands to `chdir` is built
on the unwritten buffer: the working directory never enters it. -/
theorem C7_counterexample :
    cmd_cd os5
      { cwd := '/' :: List.replicate 100 'a' ++ '/' :: List.replicate 100 'b' ++
          '/' :: List.replicate 100 'c',
        out := [], calls := [] }
      ["cd".toList, "../..".toList] = Outcome.undefined := by
  apply cmd_cd_long_cwd
  simp only [List.length_cons, List.length_append, List.length_replicate, BUFSIZE]
  omega

/-- C7, amended. Let the working directory be the absolute path of depth `n`
through the names `segs`, and the argument consist of `k ≥ 2` segments `..`
joined by slashes, followed by the literal names `lits`, such that the working
directory, one slash, the argument and the NUL fit the buffer of `cmd_cd`
(`length cwd + length arg + 2 ≤ BUFSIZE`). Let the system grant the directory
change on the path it is given and resolve that path as POSIX prescribes.
Then `cmd_cd` returns `1` having printed nothing, after the one call of
`chdir`, and the working directory it has changed into is the former one with
`min k n` trailing names removed and the literal names appended: each `..` has
removed one name, and none is removed below the root. -/
theorem C7_cd_multi_level_parent (os : OS) (st : State) (name : CStr)
    (segs lits : List CStr) (k : Nat)
    (hcwd : st.cwd = absPath segs) (hsegs : ∀ s ∈ segs, isName s)
    (hk : 2 ≤ k) (hlits : ∀ s ∈ lits, isName s)
    (hfit : st.cwd.length + (joinSlash (List.replicate k "..".toList ++ lits)).length + 2
      ≤ BUFSIZE)
    (hos : os.chdir st.cwd
        (st.cwd ++ "/".toList ++ joinSlash (List.replicate k "..".toList ++ lits)) =
      some (absPath (resolveAbs
        (st.cwd ++ "/".toList ++ joinSlash (List.replicate k "..".toList ++ lits))))) :
    cmd_cd os st [name, joinSlash (List.replicate k "..".toList ++ lits)] =
      Outcome.ret 1
        { cwd := absPath (segs.take (segs.length - min k segs.length) ++ lits),
          out := st.out,
          calls := st.calls ++ [Syscall.chdir (some
            (st.cwd ++ "/".toList ++ joinSlash (List.replicate k "..".toList ++ lits)))] } := by
  have hlen := joinSlash_dotdots_length k lits hk
  have hcd : cmd_cd os st [name, joinSlash (List.replicate k "..".toList ++ lits)] =
      chdirReport os st (joinSlash (List.replicate k "..".toList ++ lits))
        (st.cwd ++ "/".toList ++ joinSlash (List.replicate k "..".toList ++ lits)) := by
    apply cmd_cd_other os st name _ _ _ hfit
    · intro h
      rw [h] at hlen
      exact absurd hlen (by decide)
    · intro h
      rw [h] at hlen
      exact absurd hlen (by decide)
  have hne : st.cwd ++ "/".toList ++ joinSlash (List.replicate k "..".toList ++ lits) ≠ [] := by
    intro h
    have hl := congrArg List.length h
    have h1 : "/".toList.length = 1 := rfl
    simp only [List.length_append, h1, List.length_nil] at hl
    omega
  have hres : resolveAbs
      (st.cwd ++ "/".toList ++ joinSlash (List.replicate k "..".toList ++ lits)) =
      segs.take (segs.length - min k segs.length) ++ lits := by
    rw [hcwd]
    exact resolveAbs_dotdots segs lits k hsegs hlits
  rw [hcd, chdirReport_ok os st _ _ _ hne hos, hres]

/-- C7, amended, on the examples of the specification, in a system that
resolves pathnames as POSIX prescribes: from `/a/b/c` the line `cd ../..`
leads to `/a`, and `cd ../../x` to `/a/x`. -/
theorem C7_cd_multi_level_parent_witness :
    cmd_cd os5 st1 ["cd".toList, "../..".toList] =
      Outcome.ret 1
        { cwd := "/a".toList, out := [],
          calls := [Syscall.chdir (some "/a/b/c/../..".toList)] } ∧
    cmd_cd os5 st1 ["cd".toList, "../../x".toList] =
      Outcome.ret 1
        { cwd := "/a/x".toList, out := [],
          calls := [Syscall.chdir (some "/a/b/c/../../x".toList)] } :=
  ⟨C7_cd_multi_level_parent os5 st1 "cd".toList ["a".toList, "b".toList, "c".toList] [] 2
      rfl (by decide) (by decide) (by decide) (by decide) (by decide),
   C7_cd_multi_level_parent os5 st1 "cd".toList ["a".toList, "b".toList, "c".toList]
      ["x".toList] 2 rfl (by decide) (by decide) (by decide) (by decide) (by decide)⟩

/-! ## C11: a failing `cd` -/

/-- C11 fails on the code in the no-argument case. In a system where `HOME`
names a missing directory and every directory change fails, `cd` alone calls
`chdir` on `HOME`, the call fails, and `cmd_cd` returns `0` having printed
nothing; the branch for an argument, in the same function and the same
system, does print the diagnostic. -/
theorem C11_home_failure_is_silent :
    (sys_chdir os2 st1 os2.HOME).2 = false ∧
    cmd_cd os2 st1 ["cd".toList] =
      Outcome.ret 0
        { cwd := "/a/b/c".toList, out := [],
          calls := [Syscall.chdir (some "/nonexistent".toList)] } ∧
    cmd_cd os2 st1 ["cd".toList, "x".toList] =
      Outcome.ret 1
        { cwd := "/a/b/c".toList,
          out := "bash: cd: x: No such file or directory\n".toList,
          calls := [Syscall.chdir (some "/a/b/c/x".toList)] } := by
  refine ⟨by decide, by decide, by decide⟩

/-! ## C12: an empty line -/

theorem shell_exec_nil (os : OS) (st : State) : shell_exec os st [] = Outcome.undefined := by
  unfold shell_exec
  cases os.PATH with
  | none => rfl
  | some p =>
    cases hs : splitPath p with
    | none => simp only [hs]
    | some r =>
      obtain ⟨result, numPaths, maxPathLen⟩ := r
      simp only [hs]

/-- C12 fails on the code, whatever the system: for the empty token sequence
`lookup` is given `NULL` and returns `-1`, the driver calls `shell_exec`, and
`shell_exec` applies `strlen` to the `NULL` in `arg[0]`; the loop does not get
to the next line. -/
theorem C12_empty_line_is_dispatched (os : OS) (st : State) :
    lookup (tokens_get_token [] 0) = -1 ∧
    runLine os st [] = shell_exec os st [] ∧
    shell_exec os st [] = Outcome.undefined ∧
    ∀ (interactive : Bool) (rest : List (List CStr)) (line_num : Nat),
      mainLoop os interactive ([] :: rest) line_num st = Outcome.undefined := by
  have h1 : lookup (tokens_get_token [] 0) = -1 := by decide
  have h2 : runLine os st [] = shell_exec os st [] := by
    simp only [runLine, h1]
    rfl
  refine ⟨h1, h2, shell_exec_nil os st, ?_⟩
  intro interactive rest line_num
  simp only [mainLoop, h2, shell_exec_nil]

/-! ## C13: `pwd` -/

/-- C13 fails on the code. With a working directory of 302 characters `getcwd`
fails on the buffer of 256 bytes; `cmd_pwd` does not check that and hands the
unwritten buffer to `printf`: no failure is reported. -/
theorem C13_counterexample :
    cmd_pwd
      { cwd := '/' :: List.replicate 200 'a' ++ '/' :: List.replicate 100 'b',
        out := [], calls := [] }
      ["pwd".toList] = Outcome.undefined := by
  have h : ¬ (('/' :: List.replicate 200 'a' ++ '/' :: List.replicate 100 'b').length + 1
      ≤ BUFSIZE) := by
    simp only [List.length_cons, List.length_append, List.length_replicate, BUFSIZE]
    omega
  simp only [cmd_pwd, getcwd]
  rw [if_neg h]

/-- C13, amended. When the working directory `p` fits the buffer of 256 bytes
together with its NUL, so that its retrieval succeeds, `cmd_pwd` prints exactly
`p` followed by a newline and returns `1`, with no system call recorded. When
it does not fit, the retrieval fails and `cmd_pwd`, which does not check the
result of `getcwd`, reports nothing: it hands the unwritten buffer to
`printf`. -/
theorem C13_pwd_prints_cwd (st : State) (tokens : List CStr) :
    (st.cwd.length + 1 ≤ BUFSIZE →
      cmd_pwd st tokens =
        Outcome.ret 1
          { cwd := st.cwd, out := st.out ++ (st.cwd ++ "\n".toList), calls := st.calls }) ∧
    (BUFSIZE < st.cwd.length + 1 → cmd_pwd st tokens = Outcome.undefined) := by
  constructor
  · intro h
    simp only [cmd_pwd, getcwd]
    rw [if_pos h]
    rfl
  · intro h
    simp only [cmd_pwd, getcwd]
    rw [if_neg (Nat.not_le.2 h)]

/-- C13, amended, at a concrete input: in `/a/b/c`, `pwd` prints `/a/b/c` and
a newline. -/
theorem C13_pwd_prints_cwd_witness :
    cmd_pwd st1 ["pwd".toList] =
      Outcome.ret 1 { cwd := "/a/b/c".toList, out := "/a/b/c\n".toList, calls := [] } :=
  (C13_pwd_prints_cwd st1 ["pwd".toList]).1 (by decide)

/-! ## C14: the value `shell_exec` returns -/

/-- C14 fails on the code. The child terminates with exit status `1`, and
`shell_exec` returns `0` in the parent. -/
theorem C14_counterexample :
    os3.wait_status = 1 ∧
    shell_exec os3 st1 ["ls".toList, "-l".toList] =
      Outcome.ret 0
        { cwd := "/a/b/c".toList, out := [], calls := [Syscall.fork, Syscall.wait] } := by
  refine ⟨rfl, by decide⟩

/-- C14, amended. For every exit status with which the spawned child
terminates, the value the launcher returns in the parent is `0`, after `fork`
and `wait`: the status `wait` stores is not used. So whenever `shell_exec`
returns in the parent, it returns `0`. -/
theorem C14_parent_returns_zero (os : OS) (st : State) (hparent : os.fork ≠ 0) :
    (∀ (a0 : CStr) (args : List CStr),
      forkExec os st a0 args =
        Outcome.ret 0
          { cwd := st.cwd, out := st.out,
            calls := st.calls ++ [Syscall.fork, Syscall.wait] }) ∧
    (∀ (tokens : List CStr) (v : Int) (st2 : State),
      shell_exec os st tokens = Outcome.ret v st2 → v = 0) := by
  have hfe : ∀ (a0 : CStr) (args : List CStr),
      forkExec os st a0 args =
        Outcome.ret 0
          { cwd := st.cwd, out := st.out,
            calls := st.calls ++ [Syscall.fork, Syscall.wait] } := by
    intro a0 args
    simp [forkExec, hparent]
  refine ⟨hfe, ?_⟩
  intro tokens v st2 h
  unfold shell_exec at h
  cases hP : os.PATH with
  | none => simp [hP] at h
  | some p =>
    cases hs : splitPath p with
    | none => simp [hP, hs] at h
    | some r =>
      obtain ⟨result, numPaths, maxPathLen⟩ := r
      cases tokens with
      | nil => simp [hP, hs] at h
      | cons name args =>
        simp only [hP, hs] at h
        split at h
        · cases h
        · cases h
        · rw [hfe] at h
          cases h
          rfl

/-- C14, amended, in the sample system: the child ends with status `1`, the
launcher returns `0`. -/
theorem C14_parent_returns_zero_witness :
    os3.wait_status = 1 ∧
    forkExec os3 st1 "/bin/ls".toList ["-l".toList] =
      Outcome.ret 0
        { cwd := "/a/b/c".toList, out := [], calls := [Syscall.fork, Syscall.wait] } :=
  ⟨rfl, (C14_parent_returns_zero os3 st1 (by decide)).1 "/bin/ls".toList ["-l".toList]⟩

/-! ## C15: a failed `execv` -/

/-- C15. For every resolved path and argument vector, if `execv` fails in the
child with the error code `e`, the child calls `exit(e)` right after the
`execv` call, with no other system call and nothing printed; a code between
`0` and `255` is the exit status as it stands. The child does not return from
`shell_exec`: when the loop body is this launch, the driver ends with that
`exit` and processes no further line. -/
theorem C15_failed_exec_exits (os : OS) (st : State) (a0 : CStr) (args : List CStr)
    (e : Int) (hchild : os.fork = 0) (hfail : os.execv a0 = some e) :
    forkExec os st a0 args =
      Outcome.exit e
        { cwd := st.cwd, out := st.out,
          calls := st.calls ++ [Syscall.fork, Syscall.execv a0 (a0 :: args)] } ∧
    (0 ≤ e → e < 256 → exitStatus e = e) ∧
    (∀ (tokens : List CStr) (rest : List (List CStr)) (interactive : Bool) (line_num : Nat),
      runLine os st tokens = forkExec os st a0 args →
      mainLoop os interactive (tokens :: rest) line_num st =
        Outcome.exit e
          { cwd := st.cwd, out := st.out,
            calls := st.calls ++ [Syscall.fork, Syscall.execv a0 (a0 :: args)] }) := by
  have hfe : forkExec os st a0 args =
      Outcome.exit e
        { cwd := st.cwd, out := st.out,
          calls := st.calls ++ [Syscall.fork, Syscall.execv a0 (a0 :: args)] } := by
    simp [forkExec, hchild, hfail]
  refine ⟨hfe, ?_, ?_⟩
  · intro h0 h1
    exact Int.emod_eq_of_lt h0 h1
  · intro tokens rest interactive line_num hrun
    simp only [mainLoop, hrun, hfe]

/-- C15 in the sample system: `execv` on `/bin/nope` fails with code `2`, and
the child exits with `2`. -/
theorem C15_failed_exec_exits_witness :
    forkExec os1 st1 "/bin/nope".toList ["-l".toList] =
      Outcome.exit 2
        { cwd := "/a/b/c".toList, out := [],
          calls := [Syscall.fork,
            Syscall.execv "/bin/nope".toList ["/bin/nope".toList, "-l".toList]] } :=
  (C15_failed_exec_exits os1 st1 "/bin/nope".toList ["-l".toList] 2 rfl (by decide)).1

/-! ## C17: `help` -/

theorem foldl_print_helpLine (es : List fun_desc_t) :
    ∀ st : State,
      es.foldl (fun s e => print s (e.cmd ++ " - ".toList ++ e.doc ++ "\n".toList)) st =
        { cwd := st.cwd, out := st.out ++ concatAll (es.map helpLine), calls := st.calls } := by
  induction es with
  | nil => intro st; simp [concatAll]
  | cons e es ih =>
    intro st
    rw [List.foldl_cons, ih]
    simp only [print, List.map_cons, concatAll, List.foldr_cons, helpLine, List.append_assoc]

/-- C17. For every token sequence, `cmd_help` returns `1` after printing, for
each entry of `cmd_table` in table order, the one line `name - doc`, and
nothing else: four lines for the four entries; no system call is issued and
the working directory is unchanged. -/
theorem C17_help_lists_table (st : State) (tokens : List CStr) :
    cmd_help st tokens =
      Outcome.ret 1
        { cwd := st.cwd, out := st.out ++ concatAll (cmd_table.map helpLine),
          calls := st.calls } ∧
    (cmd_table.map helpLine).length = cmd_table.length ∧
    concatAll (cmd_table.map helpLine) =
      ("? - show this help menu\n" ++ "exit - exit the command shell\n" ++
        "pwd - display present working directory\n" ++
        "cd - change present working directory\n").toList := by
  refine ⟨?_, by simp, by decide⟩
  simp only [cmd_help]
  rw [foldl_print_helpLine]

/-! ## C18: the directory list of `shell_exec` -/

theorem maxLen_cons (d : CStr) (ds : List CStr) (m : Nat) :
    maxLen (d :: ds) m = maxLen ds (max m (d.length + 1)) := by
  simp only [maxLen, List.foldl_cons]
  congr 1
  by_cases h : d.length + 1 > m
  · rw [if_pos h]; omega
  · rw [if_neg h]; omega

theorem maxLen_eq (ds : List CStr) :
    ∀ m : Nat, ds ≠ [] → maxLen ds m = max m (longest ds + 1) := by
  induction ds with
  | nil => intro m h; exact absurd rfl h
  | cons d ds ih =>
    intro m _
    rw [maxLen_cons]
    cases ds with
    | nil => simp [maxLen, longest]
    | cons x xs =>
      rw [ih _ (by simp)]
      have hl : longest (d :: x :: xs) = max d.length (longest (x :: xs)) := rfl
      rw [hl]
      omega

/-- The tokenizing part of `shell_exec` on a `PATH` value that holds the
directories `d0 :: ds`. -/
theorem splitPath_eq (p d0 : CStr) (ds : List CStr) (hd : pathDirs p = d0 :: ds) :
    splitPath p = some (d0 :: ds, ds.length + 1, maxLen (d0 :: ds) 0) := by
  obtain ⟨r, hr, hrd, hlen⟩ := strtok_of_dirs p d0 ds hd
  have ht := tokenizeLoop_spec (p.length + 1) d0 r [] 0 0 (by omega) rfl
  simp only [splitPath, hr, ht, hrd, List.nil_append, Nat.zero_add]

/-- C18. For every `PATH` value with at least one non-empty segment between
colons, the tokenizing part of `shell_exec` ends (within its `envLen`
iterations) with `result` holding exactly the non-empty segments of `PATH` in
their order, `numPaths` equal to their number, and `maxPathLen` equal to the
length of the longest of them plus one. -/
theorem C18_path_splitting (p : CStr) (h : pathDirs p ≠ []) :
    splitPath p = some (pathDirs p, (pathDirs p).length, longest (pathDirs p) + 1) := by
  cases hp : pathDirs p with
  | nil => exact absurd hp h
  | cons d0 ds =>
    rw [splitPath_eq p d0 ds hp, maxLen_eq (d0 :: ds) 0 (by simp)]
    simp

/-- C18 at a concrete input: `:/usr/bin::/bin:` yields the two directories,
`numPaths = 2` and `maxPathLen = 9`. -/
theorem C18_path_splitting_witness :
    splitPath ":/usr/bin::/bin:".toList =
      some (["/usr/bin".toList, "/bin".toList], 2, 9) :=
  C18_path_splitting ":/usr/bin::/bin:".toList (by decide)

/-! ## C19: the indices of `arg` -/

/-- C19 fails on the code for every token sequence: with `n` tokens the array
`arg` is declared with `n` elements, and the store of the terminating `NULL`
goes to the index `n`, which is not less than `n`. For one token the indices
stored to are `0` and `1`. -/
theorem C19_null_store_past_array (n : Nat) :
    n ∈ argStores n ∧ ¬ (∀ i ∈ argStores n, i < n) ∧ argStores 1 = [0, 1] := by
  have hmem : n ∈ argStores n := by simp [argStores]
  refine ⟨hmem, ?_, rfl⟩
  intro hall
  exact Nat.lt_irrefl n (hall n hmem)

/-! ## C20: the buffer of the candidate path -/

theorem probeLoop_fits (probe : CStr → Bool) (cap : Nat) (name : CStr) :
    ∀ (ds : List CStr) (init : Option CStr),
      (∀ d ∈ ds, (candidate d name).length + 1 ≤ cap) →
      probeLoop probe cap name ds init ≠ none := by
  intro ds
  induction ds with
  | nil => intro init _; simp [probeLoop]
  | cons d ds ih =>
    intro init hfit
    have hd : ¬ cap < (candidate d name).length + 1 := by
      have := hfit d (List.mem_cons_self d ds)
      omega
    simp only [probeLoop]
    rw [if_neg hd]
    split
    · simp
    · exact ih _ (fun x hx => hfit x (List.mem_cons_of_mem d hx))

/-- C20. Whatever `PATH` value the tokenizing part of `shell_exec` has split
into `result`, `numPaths` and `maxPathLen`, and whatever the command name, each
candidate `dir/name` built from one of the `numPaths` directories takes, with
its terminating NUL, at most the `maxPathLen + 2 + strlen(name)` bytes that
are allocated for `absPath`; so the probing loop never stores outside that
buffer. -/
theorem C20_candidate_buffer_fits (p name : CStr) (result : List CStr)
    (numPaths maxPathLen : Nat) (h : splitPath p = some (result, numPaths, maxPathLen)) :
    (∀ d ∈ result.take numPaths,
      (d ++ "/".toList ++ name).length + 1 ≤ maxPathLen + 2 + name.length) ∧
    (∀ (probe : CStr → Bool) (init : Option CStr),
      probeLoop probe (maxPathLen + 2 + name.length) name (result.take numPaths) init
        ≠ none) := by
  have hfit : ∀ d ∈ result.take numPaths,
      (candidate d name).length + 1 ≤ maxPathLen + 2 + name.length := by
    cases hp : pathDirs p with
    | nil =>
      cases hs : strtok ':' p with
      | none => simp [splitPath, hs] at h
      | some tr =>
        obtain ⟨t, r⟩ := tr
        rw [(strtok_some_dirs p t r hs).1] at hp
        cases hp
    | cons d0 ds =>
      rw [splitPath_eq p d0 ds hp] at h
      cases h
      intro d hd
      have hd2 : d ∈ d0 :: ds := List.mem_of_mem_take hd
      exact candidate_fits (d0 :: ds) name d hd2
  exact ⟨hfit, fun probe init => probeLoop_fits probe _ name _ init hfit⟩

/-- C20 at a concrete input: with `PATH = "/usr/bin:/bin"` and the name `ls`
the buffer has 13 bytes, and the candidates take 12 and 8 bytes. -/
theorem C20_candidate_buffer_fits_witness :
    ("/usr/bin".toList ++ "/".toList ++ "ls".toList).length + 1 ≤ 9 + 2 + "ls".toList.length ∧
    ("/bin".toList ++ "/".toList ++ "ls".toList).length + 1 ≤ 9 + 2 + "ls".toList.length :=
  ⟨(C20_candidate_buffer_fits "/usr/bin:/bin".toList "ls".toList
      ["/usr/bin".toList, "/bin".toList] 2 9 (by decide)).1 "/usr/bin".toList (by decide),
   (C20_candidate_buffer_fits "/usr/bin:/bin".toList "ls".toList
      ["/usr/bin".toList, "/bin".toList] 2 9 (by decide)).1 "/bin".toList (by decide)⟩

/-! ## The output is only appended to -/

theorem print_addOut (pre : CStr) (s : State) (t : CStr) :
    print (addOut pre s) t = addOut pre (print s t) := by
  simp [print, addOut]

theorem sys_chdir_addOut (os : OS) (pre : CStr) (s : State) (path : Option CStr) :
    sys_chdir os (addOut pre s) path =
      (addOut pre (sys_chdir os s path).1, (sys_chdir os s path).2) := by
  cases path with
  | none => rfl
  | some b =>
    cases b with
    | nil => rfl
    | cons c cs =>
      cases h : os.chdir s.cwd (c :: cs) with
      | none => simp [sys_chdir, addOut, h]
      | some d => simp [sys_chdir, addOut, h]

theorem chdirReport_addOut (os : OS) (pre : CStr) (s : State) (arg buf : CStr) :
    chdirReport os (addOut pre s) arg buf = prefixOut pre (chdirReport os s arg buf) := by
  simp only [chdirReport, sys_chdir_addOut]
  cases h : sys_chdir os s (some buf) with
  | mk s1 ok =>
    cases ok with
    | true => simp [prefixOut]
    | false => simp [prefixOut, print_addOut]

theorem cmd_cd_addOut (os : OS) (pre : CStr) (s : State) (tokens : List CStr) :
    cmd_cd os (addOut pre s) tokens = prefixOut pre (cmd_cd os s tokens) := by
  have hcwd : (addOut pre s).cwd = s.cwd := rfl
  simp only [cmd_cd, hcwd]
  split
  · simp [prefixOut, sys_chdir_addOut]
  · split
    · rfl
    · split
      · rfl
      · split
        · rfl
        · split
          · rfl
          · split
            · split
              · rfl
              · split
                · rfl
                · exact chdirReport_addOut os pre s _ _
            · split
              · rfl
              · exact chdirReport_addOut os pre s _ _

theorem cmd_pwd_addOut (pre : CStr) (s : State) (tokens : List CStr) :
    cmd_pwd (addOut pre s) tokens = prefixOut pre (cmd_pwd s tokens) := by
  have hcwd : (addOut pre s).cwd = s.cwd := rfl
  simp only [cmd_pwd, hcwd]
  split
  · simp [prefixOut, print_addOut]
  · rfl

theorem cmd_help_addOut (pre : CStr) (s : State) (tokens : List CStr) :
    cmd_help (addOut pre s) tokens = prefixOut pre (cmd_help s tokens) := by
  unfold cmd_help
  rw [foldl_print_helpLine, foldl_print_helpLine]
  simp [prefixOut, addOut]

theorem forkExec_addOut (os : OS) (pre : CStr) (s : State) (a0 : CStr) (args : List CStr) :
    forkExec os (addOut pre s) a0 args = prefixOut pre (forkExec os s a0 args) := by
  simp only [forkExec]
  split
  · split <;> rfl
  · rfl

theorem shell_exec_addOut (os : OS) (pre : CStr) (s : State) (tokens : List CStr) :
    shell_exec os (addOut pre s) tokens = prefixOut pre (shell_exec os s tokens) := by
  have hcwd : (addOut pre s).cwd = s.cwd := rfl
  simp only [shell_exec, hcwd]
  split
  · rfl
  · split
    · rfl
    · split
      · rfl
      · split
        · rfl
        · rfl
        · exact forkExec_addOut os pre s _ _

theorem runLine_addOut (os : OS) (pre : CStr) (s : State) (tokens : List CStr) :
    runLine os (addOut pre s) tokens = prefixOut pre (runLine os s tokens) := by
  simp only [runLine]
  split
  · split
    · rename_i e _
      cases e.func
      · exact cmd_help_addOut pre s tokens
      · rfl
      · exact cmd_pwd_addOut pre s tokens
      · exact cmd_cd_addOut os pre s tokens
    · rfl
  · exact shell_exec_addOut os pre s tokens

/-- The processing of a line from a state is its processing from the same
state with an empty output, with the output so far put before what it
prints. -/
theorem runLine_frame (os : OS) (s : State) (tokens : List CStr) :
    runLine os s tokens = prefixOut s.out (runLine os { s with out := [] } tokens) := by
  have h := runLine_addOut os s.out { s with out := [] } tokens
  have e : addOut s.out { s with out := [] } = s := by
    simp [addOut]
  rw [e] at h
  exact h

/-! ## Lemmas on the driver -/

theorem lineText_some (os : OS) (s : State) (l : List CStr) (t : CStr) (s1 : State)
    (h : lineText os s l = some (t, s1)) :
    ∃ v, runLine os s l = Outcome.ret v (addOut s.out s1) ∧ s1.out = t := by
  unfold lineText at h
  rw [runLine_frame]
  cases hr : runLine os { s with out := [] } l with
  | ret v s2 =>
    rw [hr] at h
    simp only [Option.some.injEq, Prod.mk.injEq] at h
    obtain ⟨h1, h2⟩ := h
    subst h2
    exact ⟨v, rfl, h1⟩
  | exit c s2 => rw [hr] at h; cases h
  | image s2 => rw [hr] at h; cases h
  | undefined => rw [hr] at h; cases h

theorem lineTexts_congr (os : OS) (s t : State) (lines : List (List CStr))
    (hcwd : s.cwd = t.cwd) (hcalls : s.calls = t.calls) :
    lineTexts os s lines = lineTexts os t lines := by
  have e : ({ s with out := [] } : State) = { t with out := [] } := by
    simp [hcwd, hcalls]
  cases lines with
  | nil => rfl
  | cons l rest => simp only [lineTexts, lineText, e]

theorem lineTexts_cons (os : OS) (s : State) (l : List CStr) (rest : List (List CStr))
    (texts : List CStr) (h : lineTexts os s (l :: rest) = some texts) :
    ∃ t s1 ts, lineText os s l = some (t, s1) ∧ lineTexts os s1 rest = some ts ∧
      texts = t :: ts := by
  simp only [lineTexts] at h
  cases hl : lineText os s l with
  | none => simp only [hl] at h; cases h
  | some ts1 =>
    obtain ⟨t, s1⟩ := ts1
    simp only [hl] at h
    cases hr : lineTexts os s1 rest with
    | none => simp only [hr] at h; cases h
    | some ts =>
      simp only [hr, Option.some.injEq] at h
      exact ⟨t, s1, ts, rfl, hr, h.symm⟩

theorem lineTexts_length (os : OS) :
    ∀ (lines : List (List CStr)) (s : State) (texts : List CStr),
      lineTexts os s lines = some texts → texts.length = lines.length := by
  intro lines
  induction lines with
  | nil =>
    intro s texts h
    simp only [lineTexts, Option.some.injEq] at h
    rw [← h]
    rfl
  | cons l rest ih =>
    intro s texts h
    obtain ⟨t, s1, ts, _, hr, rfl⟩ := lineTexts_cons os s l rest texts h
    rw [List.length_cons, List.length_cons, ih s1 ts hr]

/-- The loop of an interactive session over lines that all return, while the
counter does not overflow: it returns `0`, and the output is the texts of the
lines, each followed by its prompt. -/
theorem mainLoop_interactive (os : OS) :
    ∀ (lines : List (List CStr)) (texts : List CStr) (k : Nat) (s : State),
      lineTexts os s lines = some texts → k + lines.length ≤ INT_MAX →
      ∃ fin, mainLoop os true lines k s = Outcome.ret 0 fin ∧
        fin.out = s.out ++ withPrompts k texts := by
  intro lines
  induction lines with
  | nil =>
    intro texts k s h _
    simp only [lineTexts, Option.some.injEq] at h
    subst h
    exact ⟨s, rfl, by simp [withPrompts]⟩
  | cons l rest ih =>
    intro texts k s h hk
    obtain ⟨t, s1, ts, hl, hr, rfl⟩ := lineTexts_cons os s l rest texts h
    obtain ⟨v, hrun, ht⟩ := lineText_some os s l t s1 hl
    have hk1 : ¬ INT_MAX ≤ k := by
      simp only [List.length_cons] at hk
      omega
    have hk2 : (k + 1) + rest.length ≤ INT_MAX := by
      simp only [List.length_cons] at hk
      omega
    have hnext : lineTexts os
        (print (addOut s.out s1) ((toString (k + 1)).toList ++ ": ".toList)) rest
          = some ts := by
      rw [← hr]
      exact lineTexts_congr os _ _ rest rfl rfl
    obtain ⟨fin, hfin, hout⟩ := ih ts (k + 1) _ hnext hk2
    refine ⟨fin, ?_, ?_⟩
    · simp only [mainLoop, hrun, if_true]
      rw [if_neg hk1]
      exact hfin
    · rw [hout]
      simp [print, addOut, withPrompts, promptText, ht]

/-- The loop of a non-interactive session over lines that all return: it
returns `0`, and the output is the texts of the lines and nothing else. -/
theorem mainLoop_plain (os : OS) :
    ∀ (lines : List (List CStr)) (texts : List CStr) (k : Nat) (s : State),
      lineTexts os s lines = some texts →
      ∃ fin, mainLoop os false lines k s = Outcome.ret 0 fin ∧
        fin.out = s.out ++ concatAll texts := by
  intro lines
  induction lines with
  | nil =>
    intro texts k s h
    simp only [lineTexts, Option.some.injEq] at h
    subst h
    exact ⟨s, rfl, by simp [concatAll]⟩
  | cons l rest ih =>
    intro texts k s h
    obtain ⟨t, s1, ts, hl, hr, rfl⟩ := lineTexts_cons os s l rest texts h
    obtain ⟨v, hrun, ht⟩ := lineText_some os s l t s1 hl
    have hnext : lineTexts os (addOut s.out s1) rest = some ts := by
      rw [← hr]
      exact lineTexts_congr os _ _ rest rfl rfl
    obtain ⟨fin, hfin, hout⟩ := ih ts k _ hnext
    refine ⟨fin, ?_, ?_⟩
    · simp only [mainLoop, hrun]
      exact hfin
    · rw [hout]
      simp [addOut, concatAll, ht]

theorem runLine_help (os : OS) (s : State) :
    runLine os s ["?".toList] = cmd_help s ["?".toList] := by
  have h : lookup (tokens_get_token ["?".toList] 0) = 0 := by decide
  simp only [runLine, h]
  rfl

/-- In an interactive session the counter overflows once more than `INT_MAX`
lines have been processed. -/
theorem mainLoop_overflow (os : OS) :
    ∀ (k m : Nat) (s : State), m ≤ INT_MAX → INT_MAX < m + k →
      mainLoop os true (List.replicate k ["?".toList]) m s = Outcome.undefined := by
  intro k
  induction k with
  | zero => intro m s h1 h2; omega
  | succ n ih =>
    intro m s h1 h2
    simp only [List.replicate_succ, mainLoop, runLine_help, cmd_help, if_true]
    by_cases hm : INT_MAX ≤ m
    · rw [if_pos hm]
    · rw [if_neg hm]
      exact ih (m + 1) _ (by omega) (by omega)

/-! ## C16: the prompt counter -/

/-- C16 fails on the code. In an interactive session every line `?` is
processed and returns, but on an input of `2147483648` such lines the counter
`line_num`, an `int`, is incremented past `INT_MAX`: the prompts do not carry
the values `0 .. n`. -/
theorem C16_counterexample :
    (∀ s : State, ∃ s2, runLine os4 s ["?".toList] = Outcome.ret 1 s2) ∧
    main os4 st1 (List.replicate 2147483648 ["?".toList]) = Outcome.undefined := by
  constructor
  · intro s
    rw [runLine_help]
    exact ⟨_, rfl⟩
  · have h := mainLoop_overflow os4 2147483648 0
      (print st1 ((toString (0 : Nat)).toList ++ ": ".toList)) (by decide) (by decide)
    exact h

/-- C16, amended. Let the `n` lines of the input all be processed and return
to the loop, `texts` being what each of them prints. In an interactive session
with `n ≤ INT_MAX = 2147483647`, `main` returns `0` and its output is the
prompt `0`, then for each line in turn its text followed by one prompt, the
prompts carrying the values `1 .. n` in that order: `n + 1` prompts with the
values `0 .. n`, one before the first read and one after each processed line.
In a non-interactive session `main` returns `0` and its output is the texts of
the lines and nothing else: no prompt is printed. -/
theorem C16_prompt_counter (os : OS) (st : State) (lines : List (List CStr))
    (texts : List CStr) (hret : lineTexts os st lines = some texts) :
    texts.length = lines.length ∧
    (os.isatty = true → lines.length ≤ INT_MAX →
      ∃ fin, main os st lines = Outcome.ret 0 fin ∧
        fin.out = st.out ++ promptText 0 ++ withPrompts 0 texts) ∧
    (os.isatty = false →
      ∃ fin, main os st lines = Outcome.ret 0 fin ∧ fin.out = st.out ++ concatAll texts) := by
  refine ⟨lineTexts_length os lines st texts hret, ?_, ?_⟩
  · intro htty hn
    have hnext : lineTexts os (print st ((toString (0 : Nat)).toList ++ ": ".toList)) lines
        = some texts := by
      rw [← hret]
      exact lineTexts_congr os _ _ lines rfl rfl
    obtain ⟨fin, hfin, hout⟩ := mainLoop_interactive os lines texts 0 _ hnext (by omega)
    refine ⟨fin, ?_, ?_⟩
    · simp only [main, htty, if_true]
      exact hfin
    · rw [hout]
      simp [print, promptText]
  · intro htty
    obtain ⟨fin, hfin, hout⟩ := mainLoop_plain os lines texts 0 st hret
    refine ⟨fin, ?_, hout⟩
    simp only [main, htty]
    exact hfin

/-- C16, amended, on a session of three lines from `/a/b/c`: `pwd`, `cd ..`,
`pwd`. The output is the prompt `0`, the directory, the prompt `1`, the prompt
`2`, the new directory and the prompt `3`. -/
theorem C16_prompt_counter_witness :
    ∃ fin, main os4 st1 [["pwd".toList], ["cd".toList, "..".toList], ["pwd".toList]] =
        Outcome.ret 0 fin ∧
      fin.out = st1.out ++ promptText 0 ++
        withPrompts 0 ["/a/b/c\n".toList, [], "/a/b\n".toList] :=
  (C16_prompt_counter os4 st1 [["pwd".toList], ["cd".toList, "..".toList], ["pwd".toList]]
    ["/a/b/c\n".toList, [], "/a/b\n".toList] (by decide)).2.1 rfl (by decide)

end Shell
